import Mathlib

/-!
Verification of the GitLab service collector (`YML.py`).

The Python source is shallowly embedded: Python strings become `List Char`
(named `Str` below), Python dicts become association lists whose assignment
operation `pyInsert` replaces the value of an existing key in place and
otherwise appends (exactly the observable behaviour of Python's
`d[k] = v` with respect to iteration order), and fallible code returns
`Option`/`Except`.  The network and the regular-expression fallback are
modelled as function parameters: they are the process boundaries of the
program under study.
-/

set_option autoImplicit false
set_option synthInstance.maxSize 512

namespace YMLSpec

/-- Python strings are embedded as lists of characters. -/
abbrev Str := List Char

/-- The characters removed by Python's `str.strip()` (ASCII whitespace;
`\x0b` and `\x0c` are vertical tab and form feed). -/
def pyIsSpace (c : Char) : Bool :=
  c = ' ' || c = '\t' || c = '\n' || c = '\r' || c = '\x0b' || c = '\x0c'

/-- Remove trailing characters satisfying `p` (right half of `str.strip`). -/
def dropTrailing (p : Char → Bool) : Str → Str
  | [] => []
  | c :: r => if dropTrailing p r = [] && p c then [] else c :: dropTrailing p r

/-- Python `s.strip()`: drop leading and trailing whitespace. -/
def pyStrip (s : Str) : Str :=
  dropTrailing pyIsSpace (s.dropWhile pyIsSpace)

/-- `s.split(sep)[-1]`: the segment after the last occurrence of `sep`. -/
def lastSegment (sep : Char) (s : Str) : Str :=
  ((s.reverse.takeWhile (fun c => c ≠ sep)).reverse)

/-- `YAMLAnalyzer.extract_image_tag` (src/YML.py lines 130-144), translated
branch for branch.  Note that the source tests `tag.startswith('${')` first
and only in the `elif` tests `tag.startswith('${{')`; both conditions of
the `elif` imply the corresponding condition of the `if`, so the `elif`
branch is unreachable. -/
def extract_image_tag (image_string : Str) : Str :=
  if image_string = [] then []
  else
    let s := pyStrip image_string
    if s.contains ':' then
      let tag := lastSegment ':' s
      if List.isPrefixOf ['$', '\x7b'] tag && List.isSuffixOf ['\x7d'] tag then
        (tag.drop 2).dropLast
      else if List.isPrefixOf ['$', '\x7b', '\x7b'] tag && List.isSuffixOf ['\x7d', '\x7d'] tag then
        ((tag.drop 3).dropLast).dropLast
      else tag
    else s

/-- `name.replace('-', '_').replace('.', '_')`. -/
def replaceDashDot (s : Str) : Str :=
  s.map (fun c => if c = '-' || c = '.' then '_' else c)

/-- The nine characters of the literal `'services_'`. -/
def servicesPrefixStr : Str := ['s', 'e', 'r', 'v', 'i', 'c', 'e', 's', '_']

/-- `if name.startswith('services_'): name = name[9:]`. -/
def dropServices (s : Str) : Str :=
  if List.isPrefixOf servicesPrefixStr s then s.drop 9 else s

/-- One-pass scanner implementing `re.sub(r'\[.*?\]', '', name)`.  The
state `some buf` means the scanner is inside a potential lazy match whose
consumed characters are `buf` (starting with the opening `[`).  A `]`
closes the match and discards the buffer; a newline (which `.` never
matches) aborts the match, so the buffer is emitted verbatim; the end of
the string likewise emits the buffer.  This is exactly the left-to-right,
non-overlapping behaviour of `re.sub` with a lazy group: a match starts at
the first `[` not inside a previous match and ends at the first `]`
reachable without crossing a newline. -/
def bracketAux : Option Str → Str → Str
  | none, [] => []
  | some buf, [] => buf
  | none, c :: r =>
    if c = '[' then bracketAux (some ['[']) r
    else c :: bracketAux none r
  | some buf, c :: r =>
    if c = ']' then bracketAux none r
    else if c = '\n' then buf ++ '\n' :: bracketAux none r
    else bracketAux (some (buf ++ [c])) r

/-- `re.sub(r'\[.*?\]', '', name)`. -/
def bracketSub (s : Str) : Str := bracketAux none s

/-- `re.sub(r'_+', '_', name)`: collapse each run of underscores to one. -/
def collapseU : Str → Str
  | [] => []
  | [c] => [c]
  | a :: b :: r =>
    if a = '_' && b = '_' then collapseU (b :: r) else a :: collapseU (b :: r)

/-- `name.strip('_')`. -/
def stripU (s : Str) : Str :=
  dropTrailing (fun c => c = '_') (s.dropWhile (fun c => c = '_'))

/-- `YAMLAnalyzer.normalize_service_name` (src/YML.py lines 194-204):
replace `-`/`.` by `_`, strip a leading `services_`, delete bracketed
groups, collapse underscore runs, strip outer underscores. -/
def normalize_service_name (name : Str) : Str :=
  if name = [] then []
  else stripU (collapseU (bracketSub (dropServices (replaceDashDot name))))

/-!
### The "normalized name" predicate

`normalized` is the spec's invariant on stored service names: no raw
separator (`-`, `.`), no bracket artifact, no repeated `_`, no leading or
trailing `_`.  "Bracket artifact" is read as a substring the normalizer's
own pattern `\[.*?\]` would match, i.e. a `[` with a `]` reachable
without crossing a newline (`.` does not match a newline).
-/

/-- No `-` and no `.` anywhere. -/
def noDashDot : Str → Bool
  | [] => true
  | c :: r => !(c = '-' || c = '.') && noDashDot r

/-- Scanning forward, no `]` occurs before a newline or the end: a lazy
`\[.*?\]` match starting just before this string cannot close. -/
def noCloseBeforeNL : Str → Bool
  | [] => true
  | c :: r => if c = ']' then false else if c = '\n' then true else noCloseBeforeNL r

/-- No substring matches `\[.*?\]`. -/
def noBracketMatch : Str → Bool
  | [] => true
  | c :: r => (if c = '[' then noCloseBeforeNL r else true) && noBracketMatch r

/-- No two adjacent underscores. -/
def noDD : Str → Bool
  | [] => true
  | [_] => true
  | a :: b :: r => !(a = '_' && b = '_') && noDD (b :: r)

/-- The first character, if any, is not `_`. -/
def headNotU : Str → Bool
  | [] => true
  | c :: _ => !(c = '_')

/-- The last character, if any, is not `_`. -/
def lastNotU : Str → Bool
  | [] => true
  | [c] => !(c = '_')
  | _ :: b :: r => lastNotU (b :: r)

/-- Characters allowed inside a pending bracket buffer. -/
def innOK : Str → Bool
  | [] => true
  | c :: r => if c = ']' then false else if c = '\n' then false else innOK r

/-- A fully normalized service name. -/
def normalized (l : Str) : Bool :=
  noDashDot l && noBracketMatch l && noDD l && headNotU l && lastNotU l

/-!
## The parsed-YAML data model

`yaml.safe_load` returns an arbitrary nesting of dicts, lists and scalars.
Mapping keys are embedded as strings (the traversal only ever compares
them with string literals and interpolates them into path strings).
Non-string scalars (numbers, booleans, null) are embedded as `scalar
truthy label`: `truthy` is the Python truthiness of the value and `label`
identifies the value, since the traversal never inspects non-string
scalars beyond truthiness and identity.
-/

mutual
inductive Yaml where
  | str : Str → Yaml
  | scalar : Bool → Str → Yaml
  | ymap : Entries → Yaml
  | yseq : Items → Yaml
inductive Entries where
  | nil : Entries
  | cons : Str → Yaml → Entries → Entries
inductive Items where
  | nil : Items
  | cons : Yaml → Items → Items
end

/-- A Python dict key: either a string or a hashable non-string scalar
(identified by its label).  Dicts and lists are unhashable and raise
`TypeError` when used as keys. -/
inductive PyKey where
  | s : Str → PyKey
  | atom : Str → PyKey
deriving DecidableEq

/-- The `services` dict built by `find_services_in_yaml`: insertion-ordered
key/value pairs, as a Python dict. -/
abbrev SvcMap := List (PyKey × Str)

/-- Python dict assignment `d[k] = v`: replaces the value of an existing
key in place, otherwise appends. -/
def pyInsert {κ α : Type} [DecidableEq κ] : List (κ × α) → κ → α → List (κ × α)
  | [], k, v => [(k, v)]
  | (k', v') :: rest, k, v =>
    if k' = k then (k, v) :: rest else (k', v') :: pyInsert rest k v

/-- Python dict lookup `d[k]` / `d.get(k)`. -/
def pyLookup {κ α : Type} [DecidableEq κ] (k : κ) : List (κ × α) → Option α
  | [] => none
  | (k', v) :: rest => if k' = k then some v else pyLookup k rest

/-- Fold a list of writes into a dict, one `d[k] = v` at a time. -/
def pyFoldIns {κ α : Type} [DecidableEq κ] (m : List (κ × α)) (ws : List (κ × α)) : List (κ × α) :=
  ws.foldl (fun m p => pyInsert m p.1 p.2) m

/-- Key lookup in a mapping node (`'image' in obj` / `obj.get(n)`).
Parsed dicts have unique keys, for which first-match is exact. -/
def lookupE (q : Str) : Entries → Option Yaml
  | .nil => none
  | .cons k v r => if k = q then some v else lookupE q r

def appendE : Entries → Entries → Entries
  | .nil, f => f
  | .cons k v r, f => .cons k v (appendE r f)

def imageKey : Str := "image".toList

/-- The keys whose values `recursive_search` does not descend into
(src/YML.py line 162). -/
def structuralKeys : List Str :=
  ["image", "build", "networks", "volumes", "ports", "environment"].map String.toList

/-- `next((obj.get(n) for n in ['name', 'container_name', 'service'] if n in obj), "unnamed")`:
the value of the first present fallback key, if any. -/
def fallbackVal (es : Entries) : Option Yaml :=
  match lookupE "name".toList es with
  | some v => some v
  | none =>
    match lookupE "container_name".toList es with
    | some v => some v
    | none => lookupE "service".toList es

/-- The dict key used for a root-level service entry.  A dict or list
fallback value is unhashable: `services[name] = tag` raises `TypeError`. -/
def nameOf (es : Entries) : Except Unit PyKey :=
  match fallbackVal es with
  | none => .ok (.s "unnamed".toList)
  | some (.str s) => .ok (.s s)
  | some (.scalar _ lab) => .ok (.atom lab)
  | some (.ymap _) => .error ()
  | some (.yseq _) => .error ()

/-- `f"{path}.{k}" if path else k`. -/
def childPath (path k : Str) : Str :=
  if path = [] then k else path ++ '.' :: k

/-- `f"{path}[{i}]"`. -/
def seqPath (path : Str) (i : Nat) : Str :=
  path ++ '[' :: (Nat.toDigits 10 i ++ [']'])

/-- Lines 157-160 of src/YML.py: if the node has a string-valued `image`
key, record one service entry (name = path, or the fallback name at the
root).  The error case is the `TypeError` of an unhashable name; its
payload is the `services` dict at the moment of the raise. -/
def ownRecord (es : Entries) (path : Str) (acc : SvcMap) : Except SvcMap SvcMap :=
  match lookupE imageKey es with
  | some (.str img) =>
    let tag := extract_image_tag img
    if path = [] then
      match nameOf es with
      | .ok k => .ok (pyInsert acc k tag)
      | .error _ => .error acc
    else .ok (pyInsert acc (.s path) tag)
  | _ => .ok acc

mutual
/-- `recursive_search` (src/YML.py lines 155-166): record the node's own
entry, then recurse into mapping values whose keys are not structural and
into sequence elements. -/
def searchE : Yaml → Str → SvcMap → Except SvcMap SvcMap
  | .ymap es, path, acc =>
    match ownRecord es path acc with
    | .error s => .error s
    | .ok acc1 => searchEntries es path acc1
  | .yseq its, path, acc => searchItems its 0 path acc
  | _, _, acc => .ok acc

def searchEntries : Entries → Str → SvcMap → Except SvcMap SvcMap
  | .nil, _, acc => .ok acc
  | .cons k v r, path, acc =>
    if k ∈ structuralKeys then searchEntries r path acc
    else
      match searchE v (childPath path k) acc with
      | .error s => .error s
      | .ok acc' => searchEntries r path acc'

def searchItems : Items → Nat → Str → SvcMap → Except SvcMap SvcMap
  | .nil, _, _, acc => .ok acc
  | .cons y r, i, path, acc =>
    match searchE y (seqPath path i) acc with
    | .error s => .error s
    | .ok acc' => searchItems r (i + 1) path acc'
end

/-- What `yaml.safe_load(content)` did: parsed to a document, raised a
`yaml.YAMLError`, or raised some other exception. -/
inductive ParseOutcome where
  | ok : Yaml → ParseOutcome
  | yamlError : ParseOutcome
  | otherError : ParseOutcome

/-- Python truthiness of a parsed document (`if not data`). -/
def yamlFalsy : Yaml → Bool
  | .str s => s.isEmpty
  | .scalar truthy _ => !truthy
  | .ymap .nil => true
  | .ymap _ => false
  | .yseq .nil => true
  | .yseq _ => false

/-- `YAMLAnalyzer.find_services_in_yaml` (src/YML.py lines 146-174).
The parse outcome and the result of the regex fallback
(`extract_images_via_regex`) are parameters: parsing and regular
expressions are the boundaries of what the claims exercise.  A
`yaml.YAMLError` falls back to the regex extraction; any other exception
from `safe_load` leaves `services` empty; an exception inside
`recursive_search` is caught by the same handler and the partially filled
`services` dict (the error payload of `searchE`) is returned. -/
def find_services_in_yaml (fallback : SvcMap) (po : ParseOutcome) : SvcMap :=
  match po with
  | .ok y =>
    if yamlFalsy y then []
    else
      match searchE y [] [] with
      | .ok s => s
      | .error s => s
  | .yamlError => fallback
  | .otherError => []

/-!
## Specification-side mirror of the traversal

`writesY` lists, in traversal order, the one service entry recorded for
each visited mapping node that has a string-valued `image` key; `countY`
counts those nodes.  These are compared with `searchE` in the theorems:
the dict built by the traversal is the fold of these writes.
-/

/-- The single write of `ownRecord`, as data (the unhashable-name case
never arises on exception-free runs, which is all the theorems use it
for; it is given the dummy key `.s []`). -/
def ownWrite (es : Entries) (path : Str) : List (PyKey × Str) :=
  match lookupE imageKey es with
  | some (.str img) =>
    let k : PyKey :=
      if path = [] then
        match nameOf es with
        | .ok k => k
        | .error _ => .s []
      else .s path
    [(k, extract_image_tag img)]
  | _ => []

mutual
def writesY : Yaml → Str → List (PyKey × Str)
  | .ymap es, path => ownWrite es path ++ writesEntries es path
  | .yseq its, path => writesItems its 0 path
  | _, _ => []

def writesEntries : Entries → Str → List (PyKey × Str)
  | .nil, _ => []
  | .cons k v r, path =>
    (if k ∈ structuralKeys then [] else writesY v (childPath path k)) ++ writesEntries r path

def writesItems : Items → Nat → Str → List (PyKey × Str)
  | .nil, _, _ => []
  | .cons y r, i, path => writesY y (seqPath path i) ++ writesItems r (i + 1) path
end

mutual
/-- The number of visited mapping nodes with a string-valued `image` key. -/
def countY : Yaml → Nat
  | .ymap es =>
    (match lookupE imageKey es with
     | some (.str _) => 1
     | _ => 0) + countEntries es
  | .yseq its => countItems its
  | _ => 0

def countEntries : Entries → Nat
  | .nil => 0
  | .cons k v r => (if k ∈ structuralKeys then 0 else countY v) + countEntries r

def countItems : Items → Nat
  | .nil => 0
  | .cons y r => countY y + countItems r
end

/-- The string-scalar projection of a node: what `isinstance(obj['image'], str)`
and the subsequent tag extraction can observe of an `image` value. -/
def strProj : Yaml → Option Str
  | .str s => some s
  | _ => none

/-!
## Orchestrator: `analyze_project`

Network reads (`get_file_content`) and parsing are passed in as
functions.  The error case of the `Except` is the `AttributeError` raised
by `normalize_service_name` when a service name is not a string (a
non-string has no `.replace`); it propagates out of `analyze_project`,
carrying the statistics mutated so far (statistics live on the collector
instance, so increments made before the raise persist).
-/

/-- `self.stats` of `GitLabServiceCollector`. -/
structure Stats where
  total_projects : Nat
  projects_with_yaml : Nat
  total_yaml_files : Nat
  total_services : Nat
  errors : Nat
deriving DecidableEq

def Stats.zero : Stats := ⟨0, 0, 0, 0, 0⟩

/-- One entry of the repository tree listing. -/
structure FileEntry where
  ftype : Str
  fname : Str
  fpath : Str
deriving DecidableEq

/-- `normalize_service_name` applied to a dict key: a non-string key has
no `.replace`, so the call raises `AttributeError`. -/
def normalizeKey : PyKey → Except Unit Str
  | .s l => .ok (normalize_service_name l)
  | .atom _ => .error ()

/-- `{self.analyzer.normalize_service_name(s): t for s, t in services.items()}`
(src/YML.py line 250), built one `d[k] = v` at a time in iteration order. -/
def normMapGo (acc : List (Str × Str)) : SvcMap → Except Unit (List (Str × Str))
  | [] => .ok acc
  | (k, t) :: r =>
    match normalizeKey k with
    | .error e => .error e
    | .ok nk => normMapGo (pyInsert acc nk t) r

def normMapE (services : SvcMap) : Except Unit (List (Str × Str)) :=
  normMapGo [] services

/-- `str.replace(pat, '')`: remove every occurrence of `pat`,
left-to-right, non-overlapping.  The fuel argument (initially the string
length) only forces structural termination; one character is consumed per
step, so the fuel never runs out for a non-empty pattern. -/
def removeAllFuel (pat : Str) : Nat → Str → Str
  | _, [] => []
  | 0, l => l
  | n + 1, c :: r =>
    if List.isPrefixOf pat (c :: r) then removeAllFuel pat n ((c :: r).drop pat.length)
    else c :: removeAllFuel pat n r

def pyRemoveAll (pat l : Str) : Str :=
  removeAllFuel pat l.length l

/-- Lines 251-253 of src/YML.py: the manifest key is the filename with
every occurrence of `.yml` removed, then every occurrence of `.yaml`
removed, then a leading `services_` stripped. -/
def manifestKey (fname : Str) : Str :=
  let k := pyRemoveAll ".yaml".toList (pyRemoveAll ".yml".toList fname)
  if List.isPrefixOf servicesPrefixStr k then k.drop 9 else k

/-- The filenames excluded on line 231 of src/YML.py. -/
def excludedFiles : List Str :=
  [".gitlab-ci.yml", "docker-compose.yml", "docker-compose.yaml"].map String.toList

/-- Lines 228-232: blob entries with a `.yml`/`.yaml` name outside the
exclusion list. -/
def yamlFilesOf (files : List FileEntry) : List FileEntry :=
  files.filter fun f =>
    f.ftype == "blob".toList
      && (List.isSuffixOf ".yml".toList f.fname || List.isSuffixOf ".yaml".toList f.fname)
      && !(excludedFiles.contains f.fname)

/-- The per-manifest loop of `analyze_project` (src/YML.py lines
241-259): fetch each candidate's content (a failed or empty fetch counts
one error and skips the file), extract services, and for a non-empty
extraction record the normalized map under the manifest key and bump the
manifest and service counters. -/
def analyzeLoop (getContent : Str → Option Str) (parseOf : Str → ParseOutcome)
    (regexOf : Str → SvcMap) :
    List FileEntry → List (Str × List (Str × Str)) → Stats →
      Except Stats (List (Str × List (Str × Str)) × Stats)
  | [], ps, st => .ok (ps, st)
  | yf :: rest, ps, st =>
    match getContent yf.fpath with
    | none => analyzeLoop getContent parseOf regexOf rest ps {st with errors := st.errors + 1}
    | some c =>
      if c = [] then
        analyzeLoop getContent parseOf regexOf rest ps {st with errors := st.errors + 1}
      else
        let services := find_services_in_yaml (regexOf c) (parseOf c)
        if services = [] then analyzeLoop getContent parseOf regexOf rest ps st
        else
          match normMapE services with
          | .error _ => .error st
          | .ok nm =>
            analyzeLoop getContent parseOf regexOf rest
              (pyInsert ps (manifestKey yf.fname) nm)
              {st with total_yaml_files := st.total_yaml_files + 1,
                       total_services := st.total_services + services.length}

/-- `ProjectResult` returned by `analyze_project` (line 263). -/
structure ProjectResult where
  project_id : Nat
  project_name : Str
  services : List (Str × List (Str × Str))
deriving DecidableEq

/-- `GitLabServiceCollector.analyze_project` (src/YML.py lines 217-264).
`files` is what `get_project_files` returned. -/
def analyze_project (getContent : Str → Option Str) (parseOf : Str → ParseOutcome)
    (regexOf : Str → SvcMap) (pid : Nat) (pname : Str) (files : List FileEntry)
    (st : Stats) : Except Stats (Option ProjectResult × Stats) :=
  if files = [] then .ok (none, st)
  else
    let yaml_files := yamlFilesOf files
    if yaml_files = [] then .ok (none, st)
    else
      match analyzeLoop getContent parseOf regexOf yaml_files [] st with
      | .error st' => .error st'
      | .ok (ps, st') =>
        if ps = [] then .ok (none, st')
        else .ok (some ⟨pid, pname, ps⟩,
          {st' with projects_with_yaml := st'.projects_with_yaml + 1})

/-!
## Orchestrator: `collect_all_services`

Each project's analysis unit is abstracted as a function from projects to
outcomes: a `ProjectResult`-like pair (or nothing), or an unhandled
fault.  `CollectSt` carries the two pieces of collector state that lines
292-308 of src/YML.py mutate: `self.results` and `self.stats["errors"]`.
In the threaded path, `as_completed` yields futures in a nondeterministic
completion order, so the fold is taken over an arbitrary `order` list,
which the theorems constrain to be a permutation of the submitted
projects.  In the sequential path (`use_threads` false, or at most one
project) there is no `try`/`except`, so a fault propagates: the `.error`
carries the state at the moment of the raise.
-/

inductive AOutcome where
  | ok : Option (Str × List (Str × List (Str × Str))) → AOutcome
  | fault : AOutcome

structure CollectSt where
  results : List (Str × List (Str × List (Str × Str)))
  errors : Nat
deriving DecidableEq

/-- Lines 294-303: collect future results, keying non-`None` results by
project name; a fault is caught and counted as one error. -/
def collectThreaded {P : Type} (analyze : P → AOutcome) : List P → CollectSt → CollectSt
  | [], st => st
  | p :: r, st =>
    match analyze p with
    | .fault => collectThreaded analyze r {st with errors := st.errors + 1}
    | .ok none => collectThreaded analyze r st
    | .ok (some (n, sv)) =>
      collectThreaded analyze r {st with results := pyInsert st.results n sv}

/-- Lines 304-308: the sequential loop has no exception handler. -/
def collectSequential {P : Type} (analyze : P → AOutcome) :
    List P → CollectSt → Except CollectSt CollectSt
  | [], st => .ok st
  | p :: r, st =>
    match analyze p with
    | .fault => .error st
    | .ok none => collectSequential analyze r st
    | .ok (some (n, sv)) =>
      collectSequential analyze r {st with results := pyInsert st.results n sv}

/-- Line 292: threads are used only when requested and more than one
project exists. -/
def collectDispatch {P : Type} (analyze : P → AOutcome) (use_threads : Bool)
    (order projects : List P) (st : CollectSt) : Except CollectSt CollectSt :=
  if use_threads && projects.length > 1 then .ok (collectThreaded analyze order st)
  else collectSequential analyze projects st

/-- `GitLabServiceCollector.collect_all_services` (src/YML.py lines
266-310): abort (returning nothing) when the connectivity probe fails or
the project listing is empty, otherwise dispatch the analysis units. -/
def collect_all_services {P : Type} (connected : Bool) (analyze : P → AOutcome)
    (use_threads : Bool) (order projects : List P) :
    Option (Except CollectSt CollectSt) :=
  if !connected then none
  else if projects.isEmpty then none
  else some (collectDispatch analyze use_threads order projects ⟨[], 0⟩)

/-!
## Transport client
-/

/-- `GitLabAPIClient.get_all_projects` (src/YML.py lines 78-110).  The
remote listing is a list of page responses, each carrying its items and
whether a `next` link is present; an exhausted list stands for
`make_request` returning `None`.  The loop breaks on a failed request or
an empty page, truncates and stops when a non-zero configured cap has
been reached (`if self.config.max_projects and len(all_projects) >=
self.config.max_projects` — a cap of `0` is falsy, so it disables
truncation), and otherwise continues while a `next` link exists. -/
def get_all_projects {α : Type} (max_projects : Nat) :
    List (List α × Bool) → List α → List α
  | [], acc => acc
  | (items, hasNext) :: rest, acc =>
    if items.isEmpty then acc
    else
      let acc' := acc ++ items
      if max_projects ≠ 0 && max_projects ≤ acc'.length then acc'.take max_projects
      else if hasNext then get_all_projects max_projects rest acc'
      else acc'

/-- A simulated listing of `n` pages of `pageSize` distinct items; every
page but the last signals a further page. -/
def simPages (pageSize n : Nat) : List (List Nat × Bool) :=
  (List.range n).map fun i =>
    ((List.range pageSize).map fun j => pageSize * i + j, decide (i + 1 < n))

/-- What one attempt of the `for` loop in `make_request` observes: a
response with a status code, a `requests.exceptions.Timeout`, or any
other exception. -/
inductive ReqOutcome where
  | status : Nat → ReqOutcome
  | timeout : ReqOutcome
  | exn : ReqOutcome

/-- `requests.Response.__bool__` is `self.ok`, which is true exactly when
`status_code < 400`.  Lines 42 and 44 of src/YML.py guard on `response
and response.status_code == ...`, so this truthiness participates in both
branch conditions. -/
def response_truthy (code : Nat) : Bool := code < 400

/-- `GitLabAPIClient.make_request` (src/YML.py lines 33-58), one
recursion step per loop attempt.  Returns the index of the attempt whose
response was returned (if any) and the list of sleep durations performed,
in order. -/
def makeRequestAux (outcomes : Nat → ReqOutcome) :
    Nat → Nat → List Nat → Option Nat × List Nat
  | _, 0, sleeps => (none, sleeps)
  | attempt, rem + 1, sleeps =>
    match outcomes attempt with
    | .status code =>
      if response_truthy code && code = 200 then (some attempt, sleeps)
      else if response_truthy code && code = 429 then
        makeRequestAux outcomes (attempt + 1) rem (sleeps ++ [2 ^ (attempt + 1)])
      else (none, sleeps)
    | .timeout => makeRequestAux outcomes (attempt + 1) rem (sleeps ++ [2 ^ attempt])
    | .exn => (none, sleeps)

def make_request (outcomes : Nat → ReqOutcome) (max_retries : Nat) :
    Option Nat × List Nat :=
  makeRequestAux outcomes 0 max_retries []

/-!
## Concrete instances used by the theorems
-/

/-- Does the analysis outcome stand for a raised fault? -/
def isFault : AOutcome → Bool
  | .fault => true
  | .ok _ => false

/-- `{web: {image: "nginx:1.21"}}` — the spec's end-to-end example. -/
def yDemo : Yaml :=
  .ymap (.cons "web".toList
    (.ymap (.cons "image".toList (.str "nginx:1.21".toList) .nil)) .nil)

/-- `{image: "a:1", name: "x", x: {image: "b:2"}}`: the root node records
under its fallback name `x`, which collides with the path of the nested
node at key `x`. -/
def yColl : Yaml :=
  .ymap (.cons "image".toList (.str "a:1".toList)
    (.cons "name".toList (.str "x".toList)
      (.cons "x".toList
        (.ymap (.cons "image".toList (.str "b:2".toList) .nil)) .nil)))

/-- `{a: {image: "x:1"}, "": {image: "y:2", name: {z: 1}}}`: the node
under the empty-string key inherits the empty path, so its dict-valued
`name` fallback is used as a key and raises `TypeError` — after the entry
for `a` was already recorded. -/
def yPartial : Yaml :=
  .ymap (.cons "a".toList
      (.ymap (.cons "image".toList (.str "x:1".toList) .nil))
    (.cons "".toList
      (.ymap (.cons "image".toList (.str "y:2".toList)
        (.cons "name".toList
          (.ymap (.cons "z".toList (.scalar true "1".toList) .nil)) .nil)))
      .nil))

/-- File tree of the spec's demo project: an excluded compose file and
`infra.yaml`. -/
def demoFiles : List FileEntry :=
  [⟨"blob".toList, "docker-compose.yml".toList, "docker-compose.yml".toList⟩,
   ⟨"blob".toList, "infra.yaml".toList, "infra.yaml".toList⟩]

/-- A file whose name contains `.yml` away from the extension. -/
def oddFile : FileEntry :=
  ⟨"blob".toList, "a.yml.yaml".toList, "a.yml.yaml".toList⟩

/-- Every fetch returns the one-byte text `"C"`. -/
def demoGetContent : Str → Option Str := fun _ => some "C".toList

/-- Parsing any text yields the demo document. -/
def demoParse : Str → ParseOutcome := fun _ => .ok yDemo

/-- The regex fallback is never consulted in the demo. -/
def demoRegex : Str → SvcMap := fun _ => []

/-- An analysis unit that always raises. -/
def analyzeFault : Nat → AOutcome := fun _ => .fault

/-- Project 0 raises; every other project returns a named result. -/
def analyzeMix : Nat → AOutcome :=
  fun n => if n = 0 then .fault else .ok (some ("q".toList, []))

/-- Attempts 0 and 1 see HTTP 429; attempt 2 sees HTTP 200. -/
def seq429 : Nat → ReqOutcome := fun n => if n = 2 then .status 200 else .status 429

/-!
## Lemmas about the name normalizer

The pipeline of `normalize_service_name` establishes each conjunct of
`normalized` at some stage, and every later stage preserves it.
-/

theorem noDashDot_mem : ∀ {l : Str}, noDashDot l = true →
    ∀ {c : Char}, c ∈ l → c ≠ '-' ∧ c ≠ '.' := by
  intro l
  induction l with
  | nil => intro _ c hc; cases hc
  | cons a r ih =>
    intro h c hc
    simp only [noDashDot, Bool.and_eq_true] at h
    rcases List.mem_cons.mp hc with rfl | hc
    · constructor <;> { intro he; subst he; simp at h }
    · exact ih h.2 hc

theorem noDashDot_of_mem : ∀ {l : Str}, (∀ c ∈ l, c ≠ '-' ∧ c ≠ '.') →
    noDashDot l = true := by
  intro l
  induction l with
  | nil => intro _; rfl
  | cons a r ih =>
    intro h
    have ha := h a (List.mem_cons_self a r)
    simp only [noDashDot, Bool.and_eq_true]
    refine ⟨?_, ih fun c hc => h c (List.mem_cons_of_mem _ hc)⟩
    simp [ha.1, ha.2]

theorem noDashDot_replaceDashDot (l : Str) : noDashDot (replaceDashDot l) = true := by
  apply noDashDot_of_mem
  intro c hc
  rcases List.mem_map.mp hc with ⟨a, _, rfl⟩
  by_cases h1 : a = '-' <;> by_cases h2 : a = '.' <;> simp [h1, h2]

theorem dropTrailing_eq_append (p : Char → Bool) :
    ∀ l : Str, ∃ t, l = dropTrailing p l ++ t := by
  intro l
  induction l with
  | nil => exact ⟨[], rfl⟩
  | cons c r ih =>
    rcases ih with ⟨s, hs⟩
    by_cases h1 : dropTrailing p r = []
    · by_cases h2 : p c = true
      · exact ⟨c :: r, by simp [dropTrailing, h1, h2]⟩
      · refine ⟨r, ?_⟩
        simp [dropTrailing, h1, h2]
    · refine ⟨s, ?_⟩
      simp only [dropTrailing]
      split
      · rename_i hcond
        rw [Bool.and_eq_true, decide_eq_true_iff] at hcond
        exact absurd hcond.1 h1
      · simp only [List.cons_append]
        exact congrArg (c :: ·) hs

theorem mem_dropTrailing (p : Char → Bool) {l : Str} {c : Char}
    (h : c ∈ dropTrailing p l) : c ∈ l := by
  rcases dropTrailing_eq_append p l with ⟨t, ht⟩
  rw [ht]
  exact List.mem_append_left _ h

theorem mem_stripU {l : Str} {c : Char} (h : c ∈ stripU l) : c ∈ l := by
  have h1 := mem_dropTrailing _ h
  exact (List.dropWhile_sublist _).subset h1

theorem mem_collapseU : ∀ (l : Str) (c : Char), c ∈ collapseU l → c ∈ l
  | [], _ => by simp [collapseU]
  | [a], c => by simp [collapseU]
  | a :: b :: r, c => by
    simp only [collapseU]
    split
    · intro h
      exact List.mem_cons_of_mem _ (mem_collapseU (b :: r) c h)
    · intro h
      rcases List.mem_cons.mp h with rfl | h2
      · exact List.mem_cons_self _ _
      · exact List.mem_cons_of_mem _ (mem_collapseU (b :: r) c h2)

theorem mem_bracketAux : ∀ (l : Str) (st : Option Str) (c : Char),
    c ∈ bracketAux st l → c ∈ l ∨ ∃ b, st = some b ∧ c ∈ b := by
  intro l
  induction l with
  | nil =>
    intro st c h
    match st with
    | none => cases h
    | some buf => exact Or.inr ⟨buf, rfl, h⟩
  | cons a r ih =>
    intro st c h
    match st with
    | none =>
      by_cases ha : a = '['
      · subst ha
        simp only [bracketAux, if_pos rfl] at h
        rcases ih (some ['[']) c h with hr | ⟨b, hb, hc⟩
        · exact Or.inl (List.mem_cons_of_mem _ hr)
        · cases hb
          rcases List.mem_singleton.mp hc with rfl
          exact Or.inl (List.mem_cons_self _ _)
      · simp only [bracketAux, if_neg ha] at h
        rcases List.mem_cons.mp h with rfl | h2
        · exact Or.inl (List.mem_cons_self _ _)
        · rcases ih none c h2 with hr | ⟨b, hb, _⟩
          · exact Or.inl (List.mem_cons_of_mem _ hr)
          · cases hb
    | some buf =>
      by_cases hc1 : a = ']'
      · subst hc1
        simp only [bracketAux, if_pos rfl] at h
        rcases ih none c h with hr | ⟨b, hb, _⟩
        · exact Or.inl (List.mem_cons_of_mem _ hr)
        · cases hb
      · by_cases hc2 : a = '\n'
        · subst hc2
          simp only [bracketAux, if_neg hc1, if_pos rfl] at h
          rcases List.mem_append.mp h with hb | h2
          · exact Or.inr ⟨buf, rfl, hb⟩
          · rcases List.mem_cons.mp h2 with rfl | h3
            · exact Or.inl (List.mem_cons_self _ _)
            · rcases ih none c h3 with hr | ⟨b, hb, _⟩
              · exact Or.inl (List.mem_cons_of_mem _ hr)
              · cases hb
        · simp only [bracketAux, if_neg hc1, if_neg hc2] at h
          rcases ih (some (buf ++ [a])) c h with hr | ⟨b, hb, hc⟩
          · exact Or.inl (List.mem_cons_of_mem _ hr)
          · cases hb
            rcases List.mem_append.mp hc with hb2 | hb3
            · exact Or.inr ⟨buf, rfl, hb2⟩
            · rcases List.mem_singleton.mp hb3 with rfl
              exact Or.inl (List.mem_cons_self _ _)

theorem mem_bracketSub {l : Str} {c : Char} (h : c ∈ bracketSub l) : c ∈ l := by
  rcases mem_bracketAux l none c h with h1 | ⟨b, hb, _⟩
  · exact h1
  · cases hb

theorem mem_dropServices {l : Str} {c : Char} (h : c ∈ dropServices l) : c ∈ l := by
  unfold dropServices at h
  split at h
  · exact List.drop_subset _ _ h
  · exact h

theorem innOK_cons_iff {c : Char} {r : Str} :
    innOK (c :: r) = true ↔ c ≠ ']' ∧ c ≠ '\n' ∧ innOK r = true := by
  constructor
  · intro h
    by_cases h1 : c = ']'
    · simp [innOK, h1] at h
    · by_cases h2 : c = '\n'
      · simp [innOK, h1, h2] at h
      · simp only [innOK, if_neg h1, if_neg h2] at h
        exact ⟨h1, h2, h⟩
  · rintro ⟨h1, h2, h3⟩
    simp [innOK, h1, h2, h3]

theorem innOK_append_right {a : Str} {c : Char} (h : innOK a = true)
    (h1 : c ≠ ']') (h2 : c ≠ '\n') : innOK (a ++ [c]) = true := by
  induction a with
  | nil => simp [innOK, h1, h2]
  | cons x r ih =>
    rcases innOK_cons_iff.mp h with ⟨g1, g2, g3⟩
    rw [List.cons_append]
    exact innOK_cons_iff.mpr ⟨g1, g2, ih g3⟩

theorem noCloseBeforeNL_of_innOK : ∀ {l : Str}, innOK l = true →
    noCloseBeforeNL l = true := by
  intro l
  induction l with
  | nil => intro _; rfl
  | cons c r ih =>
    intro h
    rcases innOK_cons_iff.mp h with ⟨h1, h2, h3⟩
    simp only [noCloseBeforeNL, if_neg h1, if_neg h2]
    exact ih h3

theorem noBracketMatch_cons_iff {c : Char} {r : Str} :
    noBracketMatch (c :: r) = true ↔
      (c = '[' → noCloseBeforeNL r = true) ∧ noBracketMatch r = true := by
  by_cases hc : c = '['
  · subst hc
    simp [noBracketMatch]
  · simp [noBracketMatch, hc]

theorem noBracketMatch_of_innOK : ∀ {l : Str}, innOK l = true →
    noBracketMatch l = true := by
  intro l
  induction l with
  | nil => intro _; rfl
  | cons c r ih =>
    intro h
    rcases innOK_cons_iff.mp h with ⟨_, _, h3⟩
    exact noBracketMatch_cons_iff.mpr ⟨fun _ => noCloseBeforeNL_of_innOK h3, ih h3⟩

theorem noCloseBeforeNL_append_nl {X : Str} : ∀ {a : Str}, innOK a = true →
    noCloseBeforeNL (a ++ '\n' :: X) = true := by
  intro a
  induction a with
  | nil => intro _; rfl
  | cons c r ih =>
    intro h
    rcases innOK_cons_iff.mp h with ⟨h1, h2, h3⟩
    simp only [List.cons_append, noCloseBeforeNL, if_neg h1, if_neg h2]
    exact ih h3

theorem noBracketMatch_append_nl {X : Str} (hX : noBracketMatch X = true) :
    ∀ {a : Str}, innOK a = true → noBracketMatch (a ++ '\n' :: X) = true := by
  intro a
  induction a with
  | nil =>
    intro _
    exact noBracketMatch_cons_iff.mpr ⟨fun hc => absurd hc (by decide), hX⟩
  | cons c r ih =>
    intro h
    rcases innOK_cons_iff.mp h with ⟨_, _, h3⟩
    rw [List.cons_append]
    exact noBracketMatch_cons_iff.mpr ⟨fun _ => noCloseBeforeNL_append_nl h3, ih h3⟩

/-- The scanner's output contains no remaining `\[.*?\]` match: every
kept `[` has no reachable close. -/
theorem noBracketMatch_bracketAux : ∀ l : Str,
    noBracketMatch (bracketAux none l) = true ∧
    ∀ inn : Str, innOK inn = true →
      noBracketMatch (bracketAux (some ('[' :: inn)) l) = true := by
  intro l
  induction l with
  | nil =>
    refine ⟨rfl, fun inn hinn => ?_⟩
    show noBracketMatch ('[' :: inn) = true
    exact noBracketMatch_cons_iff.mpr
      ⟨fun _ => noCloseBeforeNL_of_innOK hinn, noBracketMatch_of_innOK hinn⟩
  | cons a r ih =>
    constructor
    · by_cases ha : a = '['
      · subst ha
        simp only [bracketAux, if_pos rfl]
        exact ih.2 [] rfl
      · simp only [bracketAux, if_neg ha]
        exact noBracketMatch_cons_iff.mpr ⟨fun hc => absurd hc ha, ih.1⟩
    · intro inn hinn
      by_cases h1 : a = ']'
      · subst h1
        simp only [bracketAux, if_pos rfl]
        exact ih.1
      · by_cases h2 : a = '\n'
        · subst h2
          simp only [bracketAux, if_neg h1, if_pos rfl]
          exact noBracketMatch_append_nl ih.1
            (innOK_cons_iff.mpr ⟨by decide, by decide, hinn⟩)
        · simp only [bracketAux, if_neg h1, if_neg h2, List.cons_append]
          exact ih.2 (inn ++ [a]) (innOK_append_right hinn h1 h2)

/-- On a string with no `\[.*?\]` match, the scanner is the identity. -/
theorem bracketAux_eq_self : ∀ l : Str,
    (noBracketMatch l = true → bracketAux none l = l) ∧
    (∀ buf : Str, noCloseBeforeNL l = true → noBracketMatch l = true →
      bracketAux (some buf) l = buf ++ l) := by
  intro l
  induction l with
  | nil => exact ⟨fun _ => rfl, fun buf _ _ => by simp [bracketAux]⟩
  | cons a r ih =>
    constructor
    · intro h
      rcases noBracketMatch_cons_iff.mp h with ⟨h1, h2⟩
      by_cases ha : a = '['
      · subst ha
        simp only [bracketAux, if_pos rfl]
        exact ih.2 ['['] (h1 rfl) h2
      · simp only [bracketAux, if_neg ha]
        exact congrArg (a :: ·) (ih.1 h2)
    · intro buf hnc hm
      rcases noBracketMatch_cons_iff.mp hm with ⟨_, hm2⟩
      by_cases h1 : a = ']'
      · subst h1
        simp [noCloseBeforeNL] at hnc
      · by_cases h2 : a = '\n'
        · subst h2
          simp only [bracketAux, if_neg h1, if_pos rfl]
          rw [ih.1 hm2]
          simp
        · simp only [bracketAux, if_neg h1, if_neg h2]
          have hnc' : noCloseBeforeNL r = true := by
            simpa [noCloseBeforeNL, if_neg h1, if_neg h2] using hnc
          rw [ih.2 (buf ++ [a]) hnc' hm2]
          simp

theorem noCloseBeforeNL_collapseU : ∀ {l : Str}, noCloseBeforeNL l = true →
    noCloseBeforeNL (collapseU l) = true
  | [], _ => rfl
  | [c], h => h
  | a :: b :: r, h => by
    simp only [collapseU]
    split
    · rename_i hab
      rw [Bool.and_eq_true, decide_eq_true_iff, decide_eq_true_iff] at hab
      have : noCloseBeforeNL (b :: r) = true := by
        simpa [noCloseBeforeNL, hab.1] using h
      exact noCloseBeforeNL_collapseU this
    · by_cases h1 : a = ']'
      · subst h1
        simp [noCloseBeforeNL] at h
      · by_cases h2 : a = '\n'
        · subst h2
          simp [noCloseBeforeNL]
        · simp only [noCloseBeforeNL, if_neg h1, if_neg h2] at h ⊢
          exact noCloseBeforeNL_collapseU h

theorem noBracketMatch_collapseU : ∀ {l : Str}, noBracketMatch l = true →
    noBracketMatch (collapseU l) = true
  | [], _ => rfl
  | [c], h => h
  | a :: b :: r, h => by
    rcases noBracketMatch_cons_iff.mp h with ⟨hm1, hm2⟩
    simp only [collapseU]
    split
    · exact noBracketMatch_collapseU hm2
    · exact noBracketMatch_cons_iff.mpr
        ⟨fun hc => noCloseBeforeNL_collapseU (hm1 hc), noBracketMatch_collapseU hm2⟩

theorem noCloseBeforeNL_append_left : ∀ {x y : Str},
    noCloseBeforeNL (x ++ y) = true → noCloseBeforeNL x = true := by
  intro x y
  induction x with
  | nil => intro _; rfl
  | cons c r ih =>
    intro h
    by_cases h1 : c = ']'
    · subst h1; simp [noCloseBeforeNL] at h
    · by_cases h2 : c = '\n'
      · subst h2; simp [noCloseBeforeNL]
      · simp only [List.cons_append, noCloseBeforeNL, if_neg h1, if_neg h2] at h
        simp only [noCloseBeforeNL, if_neg h1, if_neg h2]
        exact ih h

theorem noBracketMatch_append_left : ∀ {x y : Str},
    noBracketMatch (x ++ y) = true → noBracketMatch x = true := by
  intro x y
  induction x with
  | nil => intro _; rfl
  | cons c r ih =>
    intro h
    rw [List.cons_append] at h
    rcases noBracketMatch_cons_iff.mp h with ⟨h1, h2⟩
    exact noBracketMatch_cons_iff.mpr
      ⟨fun hc => noCloseBeforeNL_append_left (h1 hc), ih h2⟩

theorem noBracketMatch_tail {c : Char} {l : Str}
    (h : noBracketMatch (c :: l) = true) : noBracketMatch l = true :=
  (noBracketMatch_cons_iff.mp h).2

theorem noBracketMatch_dropWhile (p : Char → Bool) : ∀ {l : Str},
    noBracketMatch l = true → noBracketMatch (l.dropWhile p) = true := by
  intro l
  induction l with
  | nil => intro _; rfl
  | cons c r ih =>
    intro h
    rw [List.dropWhile_cons]
    split
    · exact ih (noBracketMatch_tail h)
    · exact h

theorem noBracketMatch_stripU {l : Str} (h : noBracketMatch l = true) :
    noBracketMatch (stripU l) = true := by
  rcases dropTrailing_eq_append (fun c => c = '_')
    (l.dropWhile fun c => c = '_') with ⟨t, ht⟩
  have h1 : noBracketMatch (l.dropWhile fun c => c = '_') = true :=
    noBracketMatch_dropWhile _ h
  rw [ht] at h1
  exact noBracketMatch_append_left h1

theorem noDashDot_normalize (l : Str) :
    noDashDot (normalize_service_name l) = true := by
  unfold normalize_service_name
  split
  · rfl
  · apply noDashDot_of_mem
    intro c hc
    exact noDashDot_mem (noDashDot_replaceDashDot l)
      (mem_dropServices (mem_bracketSub (mem_collapseU _ _ (mem_stripU hc))))

theorem collapseU_cons_head : ∀ (b : Char) (r : Str), ∃ t, collapseU (b :: r) = b :: t
  | _, [] => ⟨[], rfl⟩
  | b, c :: rs => by
    simp only [collapseU]
    split
    · rename_i h
      rw [Bool.and_eq_true, decide_eq_true_iff, decide_eq_true_iff] at h
      rcases collapseU_cons_head c rs with ⟨t, ht⟩
      exact ⟨t, by rw [ht, h.1, h.2]⟩
    · exact ⟨collapseU (c :: rs), rfl⟩

theorem noDD_collapseU : ∀ l : Str, noDD (collapseU l) = true
  | [] => rfl
  | [_] => rfl
  | a :: b :: r => by
    simp only [collapseU]
    split
    · exact noDD_collapseU (b :: r)
    · rename_i h
      rcases collapseU_cons_head b r with ⟨t, ht⟩
      rw [ht]
      have hd : noDD (b :: t) = true := ht ▸ noDD_collapseU (b :: r)
      have hcond : (decide (a = '_') && decide (b = '_')) = false := by
        simpa using h
      show (!(decide (a = '_') && decide (b = '_')) && noDD (b :: t)) = true
      rw [hcond, hd]
      rfl

theorem collapseU_eq_self : ∀ {l : Str}, noDD l = true → collapseU l = l
  | [], _ => rfl
  | [_], _ => rfl
  | a :: b :: r, h => by
    have h' : (!(decide (a = '_') && decide (b = '_')) && noDD (b :: r)) = true := h
    rw [Bool.and_eq_true] at h'
    have hcond : (decide (a = '_') && decide (b = '_')) = false := by
      cases hab : (decide (a = '_') && decide (b = '_')) with
      | false => rfl
      | true => rw [hab] at h'; exact absurd h'.1 (by decide)
    simp only [collapseU]
    rw [if_neg (by simp [hcond])]
    exact congrArg (a :: ·) (collapseU_eq_self h'.2)

theorem noDD_tail {c : Char} {l : Str} (h : noDD (c :: l) = true) : noDD l = true := by
  match l with
  | [] => rfl
  | b :: r =>
    have h' : (!(decide (c = '_') && decide (b = '_')) && noDD (b :: r)) = true := h
    rw [Bool.and_eq_true] at h'
    exact h'.2

theorem noDD_dropWhile (p : Char → Bool) : ∀ {l : Str}, noDD l = true →
    noDD (l.dropWhile p) = true := by
  intro l
  induction l with
  | nil => intro _; rfl
  | cons c r ih =>
    intro h
    rw [List.dropWhile_cons]
    split
    · exact ih (noDD_tail h)
    · exact h

theorem noDD_append_left : ∀ (x y : Str), noDD (x ++ y) = true → noDD x = true
  | [], _, _ => rfl
  | [_], _, _ => rfl
  | a :: b :: r, y, h => by
    rw [List.cons_append, List.cons_append] at h
    have h' : (!(decide (a = '_') && decide (b = '_')) && noDD (b :: (r ++ y))) = true := h
    rw [Bool.and_eq_true] at h'
    have hr : noDD (b :: r) = true :=
      noDD_append_left (b :: r) y (by rw [List.cons_append]; exact h'.2)
    show (!(decide (a = '_') && decide (b = '_')) && noDD (b :: r)) = true
    rw [h'.1, hr]
    rfl

theorem noDD_stripU {l : Str} (h : noDD l = true) : noDD (stripU l) = true := by
  rcases dropTrailing_eq_append (fun c => c = '_')
    (l.dropWhile fun c => c = '_') with ⟨t, ht⟩
  have h1 : noDD (l.dropWhile fun c => c = '_') = true := noDD_dropWhile _ h
  rw [ht] at h1
  exact noDD_append_left _ _ h1

theorem headNotU_dropWhileU : ∀ l : Str,
    headNotU (List.dropWhile (fun c => c = '_') l) = true := by
  intro l
  induction l with
  | nil => rfl
  | cons c r ih =>
    rw [List.dropWhile_cons]
    split
    · exact ih
    · rename_i h
      simpa [headNotU] using h

theorem headNotU_dropTrailing (p : Char → Bool) {l : Str} (h : headNotU l = true) :
    headNotU (dropTrailing p l) = true := by
  match l with
  | [] => rfl
  | c :: r =>
    simp only [dropTrailing]
    split
    · rfl
    · exact h

theorem headNotU_stripU (l : Str) : headNotU (stripU l) = true :=
  headNotU_dropTrailing _ (headNotU_dropWhileU l)

theorem lastNotU_dropTrailingU : ∀ l : Str,
    lastNotU (dropTrailing (fun c => c = '_') l) = true
  | [] => rfl
  | c :: r => by
    simp only [dropTrailing]
    split
    · rfl
    · rename_i h
      cases hd : dropTrailing (fun c => c = '_') r with
      | nil =>
        rw [hd] at h
        have hc : ¬(c = '_') := by simpa using h
        simpa [lastNotU] using hc
      | cons y ys =>
        have := lastNotU_dropTrailingU r
        rw [hd] at this
        exact this

theorem lastNotU_stripU (l : Str) : lastNotU (stripU l) = true :=
  lastNotU_dropTrailingU _

theorem dropWhileU_eq_self {l : Str} (h : headNotU l = true) :
    List.dropWhile (fun c => c = '_') l = l := by
  match l with
  | [] => rfl
  | c :: r =>
    rw [List.dropWhile_cons, if_neg]
    simpa [headNotU] using h

theorem dropTrailingU_eq_self : ∀ {l : Str}, lastNotU l = true →
    dropTrailing (fun c => c = '_') l = l
  | [], _ => rfl
  | [c], h => by
    have hc : ¬(c = '_') := by simpa [lastNotU] using h
    simp [dropTrailing, hc]
  | a :: b :: r, h => by
    have hr : lastNotU (b :: r) = true := h
    have ih := dropTrailingU_eq_self hr
    rw [dropTrailing, ih]
    simp

theorem stripU_eq_self {l : Str} (h1 : headNotU l = true) (h2 : lastNotU l = true) :
    stripU l = l := by
  unfold stripU
  rw [dropWhileU_eq_self h1, dropTrailingU_eq_self h2]

theorem replaceDashDot_eq_self : ∀ {l : Str}, noDashDot l = true →
    replaceDashDot l = l := by
  intro l
  induction l with
  | nil => intro _; rfl
  | cons c r ih =>
    intro h
    simp only [noDashDot, Bool.and_eq_true] at h
    simp only [replaceDashDot, List.map_cons]
    rw [if_neg (by simpa using h.1)]
    exact congrArg (c :: ·) (ih h.2)

theorem dropServices_eq_self {l : Str}
    (h : List.isPrefixOf servicesPrefixStr l = false) : dropServices l = l := by
  unfold dropServices
  rw [if_neg (by simp [h])]

/-- Output of the normalizer always satisfies the normalized-name
invariant. -/
theorem normalized_normalize (l : Str) :
    normalized (normalize_service_name l) = true := by
  by_cases hl : l = []
  · subst hl; rfl
  · have hnd := noDashDot_normalize l
    unfold normalize_service_name at hnd ⊢
    rw [if_neg hl] at hnd ⊢
    have b1 : noBracketMatch (bracketSub (dropServices (replaceDashDot l))) = true :=
      (noBracketMatch_bracketAux _).1
    have b2 := noBracketMatch_collapseU b1
    have b3 := noBracketMatch_stripU b2
    have d2 := noDD_stripU (noDD_collapseU (bracketSub (dropServices (replaceDashDot l))))
    have hh := headNotU_stripU (collapseU (bracketSub (dropServices (replaceDashDot l))))
    have hl2 := lastNotU_stripU (collapseU (bracketSub (dropServices (replaceDashDot l))))
    unfold normalized
    rw [hnd, b3, d2, hh, hl2]
    rfl

/-- The normalizer is the identity on any normalized name that does not
begin with `services_`. -/
theorem normalize_eq_self {l : Str} (h : normalized l = true)
    (hp : List.isPrefixOf servicesPrefixStr l = false) :
    normalize_service_name l = l := by
  have e : (noDashDot l && noBracketMatch l && noDD l && headNotU l && lastNotU l) = true := h
  simp only [Bool.and_eq_true] at e
  obtain ⟨⟨⟨⟨hND, hNB⟩, hDD⟩, hHead⟩, hLast⟩ := e
  by_cases hl0 : l = []
  · subst hl0; rfl
  · unfold normalize_service_name
    rw [if_neg hl0, replaceDashDot_eq_self hND, dropServices_eq_self hp,
      show bracketSub l = l from (bracketAux_eq_self l).1 hNB,
      collapseU_eq_self hDD, stripU_eq_self hHead hLast]

/-!
## Lemmas about the traversal
-/

theorem pyFoldIns_append {κ α : Type} [DecidableEq κ] (m : List (κ × α))
    (w1 w2 : List (κ × α)) :
    pyFoldIns m (w1 ++ w2) = pyFoldIns (pyFoldIns m w1) w2 := by
  simp [pyFoldIns, List.foldl_append]

theorem ownRecord_ok {es : Entries} {path : Str} {acc acc1 : SvcMap}
    (h : ownRecord es path acc = .ok acc1) :
    acc1 = pyFoldIns acc (ownWrite es path) := by
  match him : lookupE imageKey es with
  | none =>
    simp only [ownRecord, him] at h
    simp only [ownWrite, him]
    cases h
    rfl
  | some (.scalar b lab) =>
    simp only [ownRecord, him] at h
    simp only [ownWrite, him]
    cases h
    rfl
  | some (.ymap es') =>
    simp only [ownRecord, him] at h
    simp only [ownWrite, him]
    cases h
    rfl
  | some (.yseq its) =>
    simp only [ownRecord, him] at h
    simp only [ownWrite, him]
    cases h
    rfl
  | some (.str img) =>
    simp only [ownRecord, him] at h
    simp only [ownWrite, him]
    by_cases hp : path = []
    · rw [if_pos hp] at h
      rw [if_pos hp]
      match hn : nameOf es with
      | .ok k =>
        simp only [hn] at h
        cases h
        rfl
      | .error e =>
        simp only [hn] at h
        cases h
    · rw [if_neg hp] at h
      rw [if_neg hp]
      cases h
      rfl

mutual
theorem searchE_eq_fold : ∀ (y : Yaml) (path : Str) (acc s : SvcMap),
    searchE y path acc = .ok s → s = pyFoldIns acc (writesY y path)
  | .str v, _, acc, s => by
    intro h
    cases h
    rfl
  | .scalar b lab, _, acc, s => by
    intro h
    cases h
    rfl
  | .ymap es, path, acc, s => by
    intro h
    simp only [searchE] at h
    match ho : ownRecord es path acc with
    | .error e => rw [ho] at h; cases h
    | .ok acc1 =>
      rw [ho] at h
      simp only [writesY, pyFoldIns_append]
      rw [← ownRecord_ok ho]
      exact searchEntries_eq_fold es path acc1 s h
  | .yseq its, path, acc, s => by
    intro h
    simp only [searchE] at h
    simp only [writesY]
    exact searchItems_eq_fold its 0 path acc s h

theorem searchEntries_eq_fold : ∀ (es : Entries) (path : Str) (acc s : SvcMap),
    searchEntries es path acc = .ok s → s = pyFoldIns acc (writesEntries es path)
  | .nil, _, acc, s => by
    intro h
    cases h
    rfl
  | .cons k v r, path, acc, s => by
    intro h
    simp only [searchEntries] at h
    simp only [writesEntries]
    by_cases hk : k ∈ structuralKeys
    · rw [if_pos hk] at h
      rw [if_pos hk]
      simp only [List.nil_append]
      exact searchEntries_eq_fold r path acc s h
    · rw [if_neg hk] at h
      rw [if_neg hk]
      match hv : searchE v (childPath path k) acc with
      | .error e => rw [hv] at h; cases h
      | .ok acc' =>
        rw [hv] at h
        rw [pyFoldIns_append, ← searchE_eq_fold v (childPath path k) acc acc' hv]
        exact searchEntries_eq_fold r path acc' s h

theorem searchItems_eq_fold : ∀ (its : Items) (i : Nat) (path : Str) (acc s : SvcMap),
    searchItems its i path acc = .ok s → s = pyFoldIns acc (writesItems its i path)
  | .nil, _, _, acc, s => by
    intro h
    cases h
    rfl
  | .cons y r, i, path, acc, s => by
    intro h
    simp only [searchItems] at h
    simp only [writesItems]
    match hy : searchE y (seqPath path i) acc with
    | .error e => rw [hy] at h; cases h
    | .ok acc' =>
      rw [hy] at h
      rw [pyFoldIns_append, ← searchE_eq_fold y (seqPath path i) acc acc' hy]
      exact searchItems_eq_fold r (i + 1) path acc' s h
end

theorem ownWrite_length (es : Entries) (path : Str) :
    (ownWrite es path).length =
      match lookupE imageKey es with
      | some (.str _) => 1
      | _ => 0 := by
  unfold ownWrite
  match lookupE imageKey es with
  | none => rfl
  | some (.str _) => rfl
  | some (.scalar _ _) => rfl
  | some (.ymap _) => rfl
  | some (.yseq _) => rfl

mutual
theorem writesY_length : ∀ (y : Yaml) (path : Str),
    (writesY y path).length = countY y
  | .str _, _ => rfl
  | .scalar _ _, _ => rfl
  | .ymap es, path => by
    simp only [writesY, countY, List.length_append, ownWrite_length,
      writesEntries_length es path]
  | .yseq its, path => by
    simp only [writesY, countY]
    exact writesItems_length its 0 path

theorem writesEntries_length : ∀ (es : Entries) (path : Str),
    (writesEntries es path).length = countEntries es
  | .nil, _ => rfl
  | .cons k v r, path => by
    simp only [writesEntries, countEntries, List.length_append]
    by_cases hk : k ∈ structuralKeys
    · rw [if_pos hk, if_pos hk]
      simp [writesEntries_length r path]
    · rw [if_neg hk, if_neg hk]
      rw [writesY_length v (childPath path k), writesEntries_length r path]

theorem writesItems_length : ∀ (its : Items) (i : Nat) (path : Str),
    (writesItems its i path).length = countItems its
  | .nil, _, _ => rfl
  | .cons y r, i, path => by
    simp only [writesItems, countItems, List.length_append]
    rw [writesY_length y (seqPath path i), writesItems_length r (i + 1) path]
end

theorem lookupE_append (q : Str) : ∀ (e1 e2 : Entries),
    lookupE q (appendE e1 e2) =
      match lookupE q e1 with
      | some v => some v
      | none => lookupE q e2
  | .nil, e2 => rfl
  | .cons k v r, e2 => by
    simp only [appendE, lookupE]
    by_cases hk : k = q
    · rw [if_pos hk, if_pos hk]
    · rw [if_neg hk, if_neg hk]
      exact lookupE_append q r e2

theorem lookupE_mid {q k : Str} (hne : k ≠ q) (v v' : Yaml) (e1 e2 : Entries) :
    lookupE q (appendE e1 (.cons k v e2)) = lookupE q (appendE e1 (.cons k v' e2)) := by
  rw [lookupE_append, lookupE_append]
  cases lookupE q e1 with
  | some w => rfl
  | none => simp only [lookupE, if_neg hne]

theorem structural_ne_names {k : Str} (hk : k ∈ structuralKeys) :
    k ≠ "name".toList ∧ k ≠ "container_name".toList ∧ k ≠ "service".toList := by
  simp only [structuralKeys, List.map_cons, List.map_nil, List.mem_cons,
    List.not_mem_nil, or_false] at hk
  rcases hk with rfl | rfl | rfl | rfl | rfl | rfl <;>
    exact ⟨by decide, by decide, by decide⟩

theorem fallbackVal_mid {k : Str} (hk : k ∈ structuralKeys) (v v' : Yaml)
    (e1 e2 : Entries) :
    fallbackVal (appendE e1 (.cons k v e2)) = fallbackVal (appendE e1 (.cons k v' e2)) := by
  rcases structural_ne_names hk with ⟨h1, h2, h3⟩
  unfold fallbackVal
  rw [lookupE_mid h1 v v' e1 e2, lookupE_mid h2 v v' e1 e2, lookupE_mid h3 v v' e1 e2]

theorem nameOf_mid {k : Str} (hk : k ∈ structuralKeys) (v v' : Yaml)
    (e1 e2 : Entries) :
    nameOf (appendE e1 (.cons k v e2)) = nameOf (appendE e1 (.cons k v' e2)) := by
  unfold nameOf
  rw [fallbackVal_mid hk v v' e1 e2]

theorem ownRecord_mid {k : Str} (hk : k ∈ structuralKeys) (v v' : Yaml)
    (hv : k = imageKey → strProj v = strProj v') (e1 e2 : Entries)
    (path : Str) (acc : SvcMap) :
    ownRecord (appendE e1 (.cons k v e2)) path acc
      = ownRecord (appendE e1 (.cons k v' e2)) path acc := by
  have hno := nameOf_mid hk v v' e1 e2
  unfold ownRecord
  rw [hno]
  by_cases hki : k = imageKey
  · subst hki
    have hsp := hv rfl
    cases h1 : lookupE imageKey e1 with
    | some w =>
      have hL : lookupE imageKey (appendE e1 (.cons imageKey v e2)) = some w := by
        rw [lookupE_append, h1]
      have hR : lookupE imageKey (appendE e1 (.cons imageKey v' e2)) = some w := by
        rw [lookupE_append, h1]
      rw [hL, hR]
    | none =>
      have hL : lookupE imageKey (appendE e1 (.cons imageKey v e2)) = some v := by
        rw [lookupE_append, h1]
        simp [lookupE]
      have hR : lookupE imageKey (appendE e1 (.cons imageKey v' e2)) = some v' := by
        rw [lookupE_append, h1]
        simp [lookupE]
      rw [hL, hR]
      cases v <;> cases v' <;> simp [strProj] at hsp <;> try rfl
      · subst hsp; rfl
  · rw [lookupE_mid hki v v' e1 e2]

theorem searchEntries_append : ∀ (e1 e2 : Entries) (path : Str) (acc : SvcMap),
    searchEntries (appendE e1 e2) path acc =
      match searchEntries e1 path acc with
      | .error s => .error s
      | .ok m => searchEntries e2 path m
  | .nil, e2, path, acc => rfl
  | .cons k v r, e2, path, acc => by
    simp only [appendE, searchEntries]
    by_cases hk : k ∈ structuralKeys
    · rw [if_pos hk, if_pos hk]
      exact searchEntries_append r e2 path acc
    · rw [if_neg hk, if_neg hk]
      match hv : searchE v (childPath path k) acc with
      | .error s => simp only [hv]
      | .ok m =>
        simp only [hv]
        exact searchEntries_append r e2 path m

theorem searchEntries_mid {k : Str} (hk : k ∈ structuralKeys) (v v' : Yaml)
    (e1 e2 : Entries) (path : Str) (acc : SvcMap) :
    searchEntries (appendE e1 (.cons k v e2)) path acc
      = searchEntries (appendE e1 (.cons k v' e2)) path acc := by
  rw [searchEntries_append, searchEntries_append]
  cases h1 : searchEntries e1 path acc with
  | error s => rfl
  | ok m => simp only [searchEntries, if_pos hk]

/-- Replacing the value stored under a structural key — for `image`, by
any value with the same string projection — cannot change the result of
the traversal: the traversal never descends into those values. -/
theorem searchE_structural_mid {k : Str} (hk : k ∈ structuralKeys) (v v' : Yaml)
    (hv : k = imageKey → strProj v = strProj v') (e1 e2 : Entries)
    (path : Str) (acc : SvcMap) :
    searchE (.ymap (appendE e1 (.cons k v e2))) path acc
      = searchE (.ymap (appendE e1 (.cons k v' e2))) path acc := by
  simp only [searchE]
  rw [ownRecord_mid hk v v' hv e1 e2 path acc]
  cases ho : ownRecord (appendE e1 (.cons k v' e2)) path acc with
  | error s => rfl
  | ok acc1 => exact searchEntries_mid hk v v' e1 e2 path acc1

/-!
## Lemmas about Python dicts
-/

theorem pyInsert_mem {κ α : Type} [DecidableEq κ] :
    ∀ (m : List (κ × α)) (k : κ) (v : α) (p : κ × α),
      p ∈ pyInsert m k v → p ∈ m ∨ p = (k, v)
  | [], k, v, p => by simp [pyInsert]
  | (k', v') :: rest, k, v, p => by
    simp only [pyInsert]
    split
    · intro h
      rcases List.mem_cons.mp h with rfl | h2
      · exact Or.inr rfl
      · exact Or.inl (List.mem_cons_of_mem _ h2)
    · intro h
      rcases List.mem_cons.mp h with rfl | h2
      · exact Or.inl (List.mem_cons_self _ _)
      · rcases pyInsert_mem rest k v p h2 with h3 | h3
        · exact Or.inl (List.mem_cons_of_mem _ h3)
        · exact Or.inr h3

theorem mem_keys_pyInsert_self {κ α : Type} [DecidableEq κ] :
    ∀ (m : List (κ × α)) (k : κ) (v : α), k ∈ (pyInsert m k v).map Prod.fst
  | [], k, v => by simp [pyInsert]
  | (k', v') :: rest, k, v => by
    simp only [pyInsert]
    split
    · simp
    · simp only [List.map_cons, List.mem_cons]
      exact Or.inr (mem_keys_pyInsert_self rest k v)

theorem mem_keys_pyInsert_of_mem {κ α : Type} [DecidableEq κ] :
    ∀ (m : List (κ × α)) (k : κ) (v : α) (q : κ),
      q ∈ m.map Prod.fst → q ∈ (pyInsert m k v).map Prod.fst
  | [], _, _, _ => by simp
  | (k', v') :: rest, k, v, q => by
    intro h
    simp only [List.map_cons, List.mem_cons] at h
    simp only [pyInsert]
    split
    · rename_i he
      rcases h with rfl | h2
      · simp [he]
      · simp only [List.map_cons, List.mem_cons]
        exact Or.inr h2
    · rcases h with rfl | h2
      · simp
      · simp only [List.map_cons, List.mem_cons]
        exact Or.inr (mem_keys_pyInsert_of_mem rest k v q h2)

theorem mem_keys_pyInsert {κ α : Type} [DecidableEq κ] {m : List (κ × α)}
    {k : κ} {v : α} {q : κ} (h : q ∈ (pyInsert m k v).map Prod.fst) :
    q ∈ m.map Prod.fst ∨ q = k := by
  rcases List.mem_map.mp h with ⟨p, hp, rfl⟩
  rcases pyInsert_mem m k v p hp with h2 | h2
  · exact Or.inl (List.mem_map_of_mem _ h2)
  · subst h2
    exact Or.inr rfl

theorem pyLookup_insert_self {κ α : Type} [DecidableEq κ] :
    ∀ (m : List (κ × α)) (k : κ) (v : α), pyLookup k (pyInsert m k v) = some v
  | [], k, v => by simp [pyInsert, pyLookup]
  | (k', v') :: rest, k, v => by
    simp only [pyInsert]
    split
    · simp [pyLookup]
    · rename_i he
      simp only [pyLookup, if_neg he]
      exact pyLookup_insert_self rest k v

theorem pyLookup_insert_ne {κ α : Type} [DecidableEq κ] {k q : κ} (hne : k ≠ q) :
    ∀ (m : List (κ × α)) (v : α), pyLookup q (pyInsert m k v) = pyLookup q m
  | [], v => by simp [pyInsert, pyLookup, hne]
  | (k', v') :: rest, v => by
    simp only [pyInsert]
    split
    · rename_i he
      subst he
      simp [pyLookup, hne]
    · by_cases hq : k' = q
      · simp [pyLookup, hq]
      · simp only [pyLookup, if_neg hq]
        exact pyLookup_insert_ne hne rest v

theorem pyLookup_fold_no_key {κ α : Type} [DecidableEq κ] {q : κ} :
    ∀ (ws : List (κ × α)) (m : List (κ × α)), (∀ p ∈ ws, p.1 ≠ q) →
      pyLookup q (pyFoldIns m ws) = pyLookup q m
  | [], m, _ => rfl
  | (k, v) :: ws, m, h => by
    have h1 : k ≠ q := h (k, v) (List.mem_cons_self _ _)
    have h2 : ∀ p ∈ ws, p.1 ≠ q := fun p hp => h p (List.mem_cons_of_mem _ hp)
    show pyLookup q (pyFoldIns (pyInsert m k v) ws) = pyLookup q m
    rw [pyLookup_fold_no_key ws (pyInsert m k v) h2]
    exact pyLookup_insert_ne h1 m v

theorem pyInsert_length_mem {κ α : Type} [DecidableEq κ] :
    ∀ (m : List (κ × α)) (k : κ) (v : α), k ∈ m.map Prod.fst →
      (pyInsert m k v).length = m.length
  | [], _, _ => by simp
  | (k', v') :: rest, k, v => by
    intro h
    simp only [pyInsert]
    split
    · simp
    · rename_i he
      simp only [List.map_cons, List.mem_cons] at h
      rcases h with rfl | h2
      · exact absurd rfl he
      · simp only [List.length_cons]
        rw [pyInsert_length_mem rest k v h2]

theorem pyInsert_length_le {κ α : Type} [DecidableEq κ] :
    ∀ (m : List (κ × α)) (k : κ) (v : α),
      (pyInsert m k v).length ≤ m.length + 1
  | [], _, _ => by simp [pyInsert]
  | (k', v') :: rest, k, v => by
    simp only [pyInsert]
    split
    · simp
    · simp only [List.length_cons]
      have := pyInsert_length_le rest k v
      omega

theorem pyFoldIns_length_le {κ α : Type} [DecidableEq κ] :
    ∀ (ws : List (κ × α)) (m : List (κ × α)),
      (pyFoldIns m ws).length ≤ m.length + ws.length
  | [], m => by simp [pyFoldIns]
  | (k, v) :: ws, m => by
    show (pyFoldIns (pyInsert m k v) ws).length ≤ m.length + ((k, v) :: ws).length
    have h1 := pyFoldIns_length_le ws (pyInsert m k v)
    have h2 := pyInsert_length_le m k v
    simp only [List.length_cons]
    omega

theorem mem_keys_pyFoldIns_of_mem {κ α : Type} [DecidableEq κ] {q : κ} :
    ∀ (ws : List (κ × α)) (m : List (κ × α)), q ∈ m.map Prod.fst →
      q ∈ (pyFoldIns m ws).map Prod.fst
  | [], _, h => h
  | (k, v) :: ws, m, h =>
    mem_keys_pyFoldIns_of_mem ws (pyInsert m k v) (mem_keys_pyInsert_of_mem m k v q h)

theorem pyFoldIns_length_lt_of_dup {κ α : Type} [DecidableEq κ]
    (w1 w2 w3 : List (κ × α)) (q : κ) (t1 t2 : α) :
    (pyFoldIns [] (w1 ++ (q, t1) :: w2 ++ (q, t2) :: w3)).length
      < (w1 ++ (q, t1) :: w2 ++ (q, t2) :: w3).length := by
  have e1 : w1 ++ (q, t1) :: w2 ++ (q, t2) :: w3
      = (w1 ++ (q, t1) :: w2) ++ ((q, t2) :: w3) := by simp
  rw [e1, pyFoldIns_append]
  have hmem : q ∈ (pyFoldIns ([] : List (κ × α)) (w1 ++ (q, t1) :: w2)).map Prod.fst := by
    rw [pyFoldIns_append]
    exact mem_keys_pyFoldIns_of_mem w2 _ (mem_keys_pyInsert_self _ q t1)
  show (pyFoldIns (pyInsert (pyFoldIns [] (w1 ++ (q, t1) :: w2)) q t2) w3).length < _
  have h1 := pyFoldIns_length_le w3 (pyInsert (pyFoldIns [] (w1 ++ (q, t1) :: w2)) q t2)
  rw [pyInsert_length_mem _ q t2 hmem] at h1
  have h2 := pyFoldIns_length_le (w1 ++ (q, t1) :: w2) ([] : List (κ × α))
  simp only [List.length_append, List.length_cons, List.length_nil] at h1 h2 ⊢
  omega

theorem pyLookup_fold_last {κ α : Type} [DecidableEq κ]
    (w1 w3 : List (κ × α)) (q : κ) (t2 : α) (h3 : ∀ p ∈ w3, p.1 ≠ q) :
    pyLookup q (pyFoldIns [] (w1 ++ (q, t2) :: w3)) = some t2 := by
  rw [pyFoldIns_append]
  show pyLookup q (pyFoldIns (pyInsert (pyFoldIns [] w1) q t2) w3) = some t2
  rw [pyLookup_fold_no_key w3 _ h3]
  exact pyLookup_insert_self _ q t2

/-!
## Lemmas about `analyze_project` and `collect_all_services`
-/

/-- On a service map whose names are all strings, the normalizing dict
comprehension never raises and folds the normalized writes in order. -/
theorem normMapGo_strings : ∀ (raw : List (Str × Str)) (acc : List (Str × Str)),
    normMapGo acc (raw.map fun p => (PyKey.s p.1, p.2))
      = .ok (pyFoldIns acc (raw.map fun p => (normalize_service_name p.1, p.2)))
  | [], acc => rfl
  | (k, t) :: r, acc => by
    simp only [List.map_cons, normMapGo, normalizeKey]
    exact normMapGo_strings r (pyInsert acc (normalize_service_name k) t)

theorem normMapGo_normalized : ∀ (svcs : SvcMap) (acc nm : List (Str × Str)),
    (∀ p ∈ acc, normalized p.1 = true) → normMapGo acc svcs = .ok nm →
    ∀ p ∈ nm, normalized p.1 = true
  | [], acc, nm, hacc, h => by
    cases h
    exact hacc
  | (k, t) :: r, acc, nm, hacc, h => by
    simp only [normMapGo] at h
    match hk : normalizeKey k with
    | .error e => rw [hk] at h; cases h
    | .ok nk =>
      rw [hk] at h
      have hnk : normalized nk = true := by
        match k, hk with
        | .s l, hk =>
          simp only [normalizeKey] at hk
          cases hk
          exact normalized_normalize l
      refine normMapGo_normalized r (pyInsert acc nk t) nm ?_ h
      intro p hp
      rcases pyInsert_mem acc nk t p hp with h2 | h2
      · exact hacc p h2
      · rw [h2]
        exact hnk

/-- Processing one manifest whose fetch succeeded with non-empty text and
whose extraction is non-empty and normalizes without an exception:
record the normalized map under the manifest key and bump the two
counters. -/
theorem analyzeLoop_step (g : Str → Option Str) (po : Str → ParseOutcome)
    (rg : Str → SvcMap) (yf : FileEntry) (rest : List FileEntry)
    (ps : List (Str × List (Str × Str))) (st : Stats) (c : Str) (svcs : SvcMap)
    (nm : List (Str × Str)) (hc : g yf.fpath = some c) (hc0 : ¬(c = []))
    (hs : find_services_in_yaml (rg c) (po c) = svcs) (hs0 : ¬(svcs = []))
    (hn : normMapE svcs = .ok nm) :
    analyzeLoop g po rg (yf :: rest) ps st
      = analyzeLoop g po rg rest (pyInsert ps (manifestKey yf.fname) nm)
          {st with total_yaml_files := st.total_yaml_files + 1,
                   total_services := st.total_services + svcs.length} := by
  simp only [analyzeLoop, hc]
  rw [if_neg hc0, hs, if_neg hs0]
  simp only [hn]

/-- A failed or empty fetch counts one error and skips the file. -/
theorem analyzeLoop_step_fetch_failure (g : Str → Option Str)
    (po : Str → ParseOutcome) (rg : Str → SvcMap) (yf : FileEntry)
    (rest : List FileEntry) (ps : List (Str × List (Str × Str))) (st : Stats)
    (hc : g yf.fpath = none ∨ g yf.fpath = some []) :
    analyzeLoop g po rg (yf :: rest) ps st
      = analyzeLoop g po rg rest ps {st with errors := st.errors + 1} := by
  rcases hc with hc | hc <;> simp [analyzeLoop, hc]

theorem analyzeLoop_normalized (g : Str → Option Str) (po : Str → ParseOutcome)
    (rg : Str → SvcMap) :
    ∀ (yfs : List FileEntry) (ps ps' : List (Str × List (Str × Str)))
      (st st' : Stats),
    (∀ e ∈ ps, ∀ p ∈ e.2, normalized p.1 = true) →
    analyzeLoop g po rg yfs ps st = .ok (ps', st') →
    ∀ e ∈ ps', ∀ p ∈ e.2, normalized p.1 = true
  | [], ps, ps', st, st', hps, h => by
    cases h
    exact hps
  | yf :: rest, ps, ps', st, st', hps, h => by
    simp only [analyzeLoop] at h
    match hc : g yf.fpath with
    | none =>
      simp only [hc] at h
      exact analyzeLoop_normalized g po rg rest ps ps' _ st' hps h
    | some c =>
      simp only [hc] at h
      by_cases hc0 : c = []
      · rw [if_pos hc0] at h
        exact analyzeLoop_normalized g po rg rest ps ps' _ st' hps h
      · rw [if_neg hc0] at h
        by_cases hs0 : find_services_in_yaml (rg c) (po c) = []
        · rw [if_pos hs0] at h
          exact analyzeLoop_normalized g po rg rest ps ps' _ st' hps h
        · rw [if_neg hs0] at h
          match hn : normMapE (find_services_in_yaml (rg c) (po c)) with
          | .error e => simp only [hn] at h; cases h
          | .ok nm =>
            simp only [hn] at h
            refine analyzeLoop_normalized g po rg rest _ ps' _ st' ?_ h
            intro e he p hp
            rcases pyInsert_mem ps (manifestKey yf.fname) nm e he with h2 | h2
            · exact hps e h2 p hp
            · subst h2
              exact normMapGo_normalized _ [] nm (by intro p hp; cases hp) hn p hp

theorem analyze_project_normalized (g : Str → Option Str)
    (po : Str → ParseOutcome) (rg : Str → SvcMap) (pid : Nat) (pname : Str)
    (files : List FileEntry) (st st' : Stats) (pr : ProjectResult)
    (h : analyze_project g po rg pid pname files st = .ok (some pr, st')) :
    ∀ e ∈ pr.services, ∀ p ∈ e.2, normalized p.1 = true := by
  unfold analyze_project at h
  by_cases h0 : files = []
  · rw [if_pos h0] at h
    cases h
  · rw [if_neg h0] at h
    by_cases h1 : yamlFilesOf files = []
    · rw [if_pos h1] at h
      cases h
    · rw [if_neg h1] at h
      match hl : analyzeLoop g po rg (yamlFilesOf files) [] st with
      | .error e => simp only [hl] at h; cases h
      | .ok (ps, st1) =>
        simp only [hl] at h
        by_cases h2 : ps = []
        · rw [if_pos h2] at h
          cases h
        · rw [if_neg h2] at h
          cases h
          exact analyzeLoop_normalized g po rg _ [] ps st st1
            (by intro e he; cases he) hl

/-- A falsy parsed document makes the traversal a no-op. -/
theorem searchE_falsy {y : Yaml} (h : yamlFalsy y = true) :
    searchE y [] [] = .ok [] := by
  match y with
  | .str s => rfl
  | .scalar b lab => rfl
  | .ymap es =>
    match es with
    | .nil => rfl
    | .cons k v r => simp [yamlFalsy] at h
  | .yseq its =>
    match its with
    | .nil => rfl
    | .cons y r => simp [yamlFalsy] at h

theorem collectThreaded_errors {P : Type} (analyze : P → AOutcome) :
    ∀ (order : List P) (st : CollectSt),
    (collectThreaded analyze order st).errors
      = st.errors + order.countP (fun p => isFault (analyze p))
  | [], st => by simp [collectThreaded]
  | p :: r, st => by
    simp only [collectThreaded]
    match ha : analyze p with
    | .fault =>
      rw [collectThreaded_errors analyze r _, List.countP_cons]
      simp [ha, isFault]
      try omega
    | .ok none =>
      rw [collectThreaded_errors analyze r st, List.countP_cons]
      simp [ha, isFault]
      try omega
    | .ok (some (n, sv)) =>
      rw [collectThreaded_errors analyze r _, List.countP_cons]
      simp [ha, isFault]
      try omega

theorem collectThreaded_keys_persist {P : Type} (analyze : P → AOutcome) :
    ∀ (order : List P) (st : CollectSt) (n : Str),
    n ∈ st.results.map Prod.fst →
    n ∈ (collectThreaded analyze order st).results.map Prod.fst
  | [], st, n, h => h
  | p :: r, st, n, h => by
    simp only [collectThreaded]
    match ha : analyze p with
    | .fault => exact collectThreaded_keys_persist analyze r _ n h
    | .ok none => exact collectThreaded_keys_persist analyze r _ n h
    | .ok (some (n', sv)) =>
      exact collectThreaded_keys_persist analyze r _ n
        (mem_keys_pyInsert_of_mem _ n' sv n h)

theorem collectThreaded_mem_of_ok {P : Type} (analyze : P → AOutcome) :
    ∀ (order : List P) (st : CollectSt) (p : P) (n : Str)
      (sv : List (Str × List (Str × Str))),
    p ∈ order → analyze p = .ok (some (n, sv)) →
    n ∈ (collectThreaded analyze order st).results.map Prod.fst
  | [], _, _, _, _, hmem, _ => absurd hmem (List.not_mem_nil _)
  | q :: r, st, p, n, sv, hmem, ha => by
    simp only [collectThreaded]
    rcases List.mem_cons.mp hmem with rfl | h2
    · rw [ha]
      exact collectThreaded_keys_persist analyze r _ n
        (mem_keys_pyInsert_self _ n sv)
    · match hq : analyze q with
      | .fault => exact collectThreaded_mem_of_ok analyze r _ p n sv h2 ha
      | .ok none => exact collectThreaded_mem_of_ok analyze r _ p n sv h2 ha
      | .ok (some (n', sv')) =>
        exact collectThreaded_mem_of_ok analyze r _ p n sv h2 ha

theorem collectThreaded_keys_sub {P : Type} (analyze : P → AOutcome) :
    ∀ (order : List P) (st : CollectSt) (n : Str),
    n ∈ (collectThreaded analyze order st).results.map Prod.fst →
    n ∈ st.results.map Prod.fst
      ∨ ∃ p ∈ order, ∃ sv, analyze p = .ok (some (n, sv))
  | [], st, n, h => Or.inl h
  | q :: r, st, n, h => by
    simp only [collectThreaded] at h
    match hq : analyze q with
    | .fault =>
      rw [hq] at h
      rcases collectThreaded_keys_sub analyze r _ n h with h2 | ⟨p, hp, sv, ha⟩
      · exact Or.inl h2
      · exact Or.inr ⟨p, List.mem_cons_of_mem _ hp, sv, ha⟩
    | .ok none =>
      rw [hq] at h
      rcases collectThreaded_keys_sub analyze r _ n h with h2 | ⟨p, hp, sv, ha⟩
      · exact Or.inl h2
      · exact Or.inr ⟨p, List.mem_cons_of_mem _ hp, sv, ha⟩
    | .ok (some (n', sv')) =>
      rw [hq] at h
      rcases collectThreaded_keys_sub analyze r _ n h with h2 | ⟨p, hp, sv, ha⟩
      · rcases mem_keys_pyInsert h2 with h3 | rfl
        · exact Or.inl h3
        · exact Or.inr ⟨q, List.mem_cons_self _ _, sv', hq⟩
      · exact Or.inr ⟨p, List.mem_cons_of_mem _ hp, sv, ha⟩

theorem collectThreaded_results_pred {P : Type} (analyze : P → AOutcome)
    (Q : Str × List (Str × List (Str × Str)) → Prop) :
    ∀ (order : List P) (st : CollectSt),
    (∀ e ∈ st.results, Q e) →
    (∀ (p : P) (n : Str) (sv : List (Str × List (Str × Str))),
      analyze p = .ok (some (n, sv)) → Q (n, sv)) →
    ∀ e ∈ (collectThreaded analyze order st).results, Q e
  | [], st, hst, _, e, he => hst e he
  | q :: r, st, hst, hok, e, he => by
    simp only [collectThreaded] at he
    match hq : analyze q with
    | .fault =>
      simp only [hq] at he
      exact collectThreaded_results_pred analyze Q r
        {results := st.results, errors := st.errors + 1} hst hok e he
    | .ok none =>
      simp only [hq] at he
      exact collectThreaded_results_pred analyze Q r st hst hok e he
    | .ok (some (n', sv')) =>
      simp only [hq] at he
      refine collectThreaded_results_pred analyze Q r _ ?_ hok e he
      intro e' he'
      rcases pyInsert_mem st.results n' sv' e' he' with h2 | h2
      · exact hst e' h2
      · rw [h2]
        exact hok q n' sv' hq

/-- The paginated fetch returns exactly the cap when the cap is positive
and smaller than the remaining supply of full pages. -/
theorem get_all_projects_cap {α : Type} :
    ∀ (ps : List (List α × Bool)) (acc : List α) (C : Nat),
    C ≠ 0 → acc.length < C → C ≤ acc.length + 50 * ps.length →
    (∀ p ∈ ps, (p.1).length = 50) →
    (∀ p ∈ ps.dropLast, p.2 = true) →
    (get_all_projects C ps acc).length = C
  | [], acc, C => by
    intro h0 h1 h2 _ _
    simp only [List.length_nil, Nat.mul_zero, Nat.add_zero] at h2
    omega
  | (items, hasNext) :: rest, acc, C => by
    intro h0 h1 h2 hlen hnext
    have hitems : items.length = 50 :=
      hlen (items, hasNext) (List.mem_cons_self _ _)
    have hne : items.isEmpty = false := by
      cases items with
      | nil => simp at hitems
      | cons a l => rfl
    simp only [get_all_projects, hne, Bool.false_eq_true, if_false]
    by_cases hcap : C ≤ (acc ++ items).length
    · have hb1 : decide (C ≠ 0) = true := by simp [h0]
      have hb2 : decide (C ≤ (acc ++ items).length) = true := by simpa using hcap
      rw [if_pos (show (decide (C ≠ 0) && decide (C ≤ (acc ++ items).length)) = true by
        rw [hb1, hb2]; rfl)]
      simp only [List.length_take]
      omega
    · have hb2 : decide (C ≤ (acc ++ items).length) = false := by simpa using hcap
      rw [if_neg (show ¬((decide (C ≠ 0) && decide (C ≤ (acc ++ items).length)) = true) by
        rw [hb2]; simp)]
      have hlt : (acc ++ items).length < C := by omega
      have hrest : rest ≠ [] := by
        intro hr
        subst hr
        simp only [List.length_cons, List.length_nil] at h2
        simp only [List.length_append, hitems] at hlt
        omega
      have hhn : hasNext = true := by
        apply hnext (items, hasNext)
        cases rest with
        | nil => exact absurd rfl hrest
        | cons b bs => exact List.mem_cons_self _ _
      rw [hhn, if_pos rfl]
      refine get_all_projects_cap rest (acc ++ items) C h0 hlt ?_ ?_ ?_
      · simp only [List.length_append, hitems, List.length_cons] at h2 ⊢
        omega
      · intro p hp
        exact hlen p (List.mem_cons_of_mem _ hp)
      · intro p hp
        apply hnext p
        cases rest with
        | nil => exact absurd rfl hrest
        | cons b bs =>
          show p ∈ (items, hasNext) :: (b :: bs).dropLast
          exact List.mem_cons_of_mem _ hp

theorem simPages_lengths (N : Nat) : ∀ p ∈ simPages 50 N, (p.1).length = 50 := by
  intro p hp
  rcases List.mem_map.mp hp with ⟨i, _, rfl⟩
  simp

theorem simPages_flags (N : Nat) : ∀ p ∈ (simPages 50 N).dropLast, p.2 = true := by
  match N with
  | 0 =>
    intro p hp
    simp [simPages] at hp
  | m + 1 =>
    intro p hp
    have he : simPages 50 (m + 1)
        = (List.range m).map (fun i =>
            ((List.range 50).map fun j => 50 * i + j, decide (i + 1 < m + 1)))
          ++ [((List.range 50).map fun j => 50 * m + j, decide (m + 1 < m + 1))] := by
      simp [simPages, List.range_succ]
    rw [he, List.dropLast_concat] at hp
    rcases List.mem_map.mp hp with ⟨i, hi, rfl⟩
    simp only [List.mem_range] at hi
    simp only [decide_eq_true_eq]
    omega

/-!
## The claims
-/

/-- C1 (code_bug record): the source tests `tag.startswith('${')` before
`tag.startswith('${{')`, so the `${{...}}` branch is unreachable: a tag
wrapped in `${{...}}` is stripped 2/1, leaving braces, where the claim
(and the code's own comment about stripping `${{...}}` wrappers) expects
3/2 stripping. -/
theorem extract_image_tag_double_brace_not_stripped :
    extract_image_tag "a:$\x7b\x7bB\x7d\x7d".toList = "\x7bB\x7d".toList
    ∧ "\x7bB\x7d".toList ≠ "B".toList := by
  constructor
  · decide
  · decide

/-- C2 (counterexample): in `{image: "a:1", name: "x", x: {image: "b:2"}}`
two visited mapping nodes carry a string `image` key, but the root's
fallback name `x` collides with the nested node's path `x`, so the
resulting map holds one entry, not one per node. -/
theorem find_services_entry_count_counterexample :
    countY yColl = 2
    ∧ find_services_in_yaml [] (.ok yColl) = [(.s "x".toList, "2".toList)]
    ∧ ¬((find_services_in_yaml [] (.ok yColl)).length = countY yColl) := by
  refine ⟨by decide, by decide, by decide⟩

/-- C2 (amended): on an exception-free traversal the `services` dict is
the in-order fold of exactly one write per visited mapping node with a
string-valued `image` key (so one map entry per such node whenever the
derived names are distinct, with later writes overwriting earlier ones);
and the traversal never descends into the values of the structural keys:
replacing the value under `build`, `networks`, `volumes`, `ports`,
`environment` — or under `image`, keeping its string projection — cannot
change the result. -/
theorem find_services_one_write_per_visited_node :
    (∀ (y : Yaml) (s : SvcMap), searchE y [] [] = .ok s →
      s = pyFoldIns [] (writesY y []) ∧ (writesY y []).length = countY y)
    ∧ (∀ (k : Str), k ∈ structuralKeys → ∀ (v v' : Yaml),
        (k = imageKey → strProj v = strProj v') →
        ∀ (e1 e2 : Entries) (path : Str) (acc : SvcMap),
        searchE (.ymap (appendE e1 (.cons k v e2))) path acc
          = searchE (.ymap (appendE e1 (.cons k v' e2))) path acc) :=
  ⟨fun y s h => ⟨searchE_eq_fold y [] [] s h, writesY_length y []⟩,
   fun _ hk v v' hv e1 e2 path acc => searchE_structural_mid hk v v' hv e1 e2 path acc⟩

theorem find_services_one_write_per_visited_node_witness :
    [(PyKey.s "web".toList, "1.21".toList)] = pyFoldIns [] (writesY yDemo [])
    ∧ (writesY yDemo []).length = countY yDemo :=
  find_services_one_write_per_visited_node.1 yDemo
    [(PyKey.s "web".toList, "1.21".toList)] rfl

/-- C3 (counterexample): stripping outer underscores can expose a
`services_` prefix that the (earlier) prefix-stripping stage no longer
sees, so a second application strips further. -/
theorem normalize_service_name_not_idempotent :
    ¬(normalize_service_name (normalize_service_name "_services_x".toList)
      = normalize_service_name "_services_x".toList) := by
  decide

/-- C3 (amended): the normalizer is idempotent on every input whose
normalized form does not begin with `services_`. -/
theorem normalize_service_name_idempotent_off_services (l : Str)
    (h : List.isPrefixOf servicesPrefixStr (normalize_service_name l) = false) :
    normalize_service_name (normalize_service_name l) = normalize_service_name l :=
  normalize_eq_self (normalized_normalize l) h

theorem normalize_service_name_idempotent_off_services_witness :
    List.isPrefixOf servicesPrefixStr (normalize_service_name "a-b".toList) = false
    ∧ normalize_service_name (normalize_service_name "a-b".toList)
        = normalize_service_name "a-b".toList :=
  ⟨by decide, normalize_service_name_idempotent_off_services "a-b".toList (by decide)⟩

/-- C4 (counterexample): the cap check is `if self.config.max_projects
and ...`, and `0` is falsy in Python, so a configured cap of `0` (which
satisfies `C < N·pageSize`) disables truncation instead of returning 0
items. -/
theorem get_all_projects_cap_zero_counterexample :
    0 < 50 * 1
    ∧ (get_all_projects 0 (simPages 50 1) []).length = 50
    ∧ ¬((get_all_projects 0 (simPages 50 1) []).length = 0) := by
  refine ⟨by decide, by decide, by decide⟩

/-- C4 (amended): for every simulated listing of N pages of 50 items and
every positive cap C < 50·N, the pagination loop returns exactly C
projects, truncating when the cap is reached. -/
theorem get_all_projects_returns_cap (N C : Nat) (h1 : 1 ≤ C) (h2 : C < 50 * N) :
    (get_all_projects C (simPages 50 N) []).length = C := by
  apply get_all_projects_cap (simPages 50 N) [] C
  · omega
  · simpa using h1
  · simp only [simPages, List.length_map, List.length_range, List.length_nil]
    omega
  · exact simPages_lengths N
  · exact simPages_flags N

theorem get_all_projects_returns_cap_witness :
    1 ≤ 70 ∧ 70 < 50 * 2
    ∧ (get_all_projects 70 (simPages 50 2) []).length = 70 :=
  ⟨by decide, by decide, get_all_projects_returns_cap 2 70 (by decide) (by decide)⟩

/-- C5 (code_bug record): `requests.Response.__bool__` is `status_code <
400`, so a 429 response is falsy and `response and response.status_code
== 429` can never hold: the retry-with-backoff branch is unreachable, and
any 429 makes `make_request` return no result immediately with no sleep,
instead of the two backoff sleeps and final success the claim expects. -/
theorem make_request_429_immediate_failure (outcomes : Nat → ReqOutcome)
    (h : outcomes 0 = .status 429) : make_request outcomes 3 = (none, []) := by
  simp [make_request, makeRequestAux, h, response_truthy]

theorem make_request_429_immediate_failure_witness :
    seq429 0 = ReqOutcome.status 429 ∧ make_request seq429 3 = (none, []) :=
  ⟨rfl, make_request_429_immediate_failure seq429 rfl⟩

/-- C6 (counterexample): with exactly one project the sequential path is
taken; it has no exception handler, so the fault propagates out of
`collect_all_services` with the error counter still 0, not incremented by
exactly 1. -/
theorem collect_sequential_fault_counterexample :
    collect_all_services true analyzeFault true [0] [0]
      = some (.error ⟨[], 0⟩)
    ∧ ¬(∃ st' : CollectSt,
        collect_all_services true analyzeFault true [0] [0] = some (.ok st')
        ∧ st'.errors = 1) := by
  constructor
  · rfl
  · rintro ⟨st', he, _⟩
    rw [show collect_all_services true analyzeFault true [0] [0]
      = some (.error ⟨[], 0⟩) from rfl] at he
    cases he

/-- C6 (amended): in the threaded path (more than one project), faults
are isolated: the dispatch succeeds, the error counter counts exactly the
faulting units, every unit with a non-empty result appears in the final
results, and every result key comes from some unit; in the sequential
path (exactly one project) a fault propagates as an exception with the
error counter not incremented. -/
theorem collect_fault_isolation :
    (∀ (P : Type) (analyze : P → AOutcome) (projects order : List P),
      List.Perm order projects → 1 < projects.length →
      collectDispatch analyze true order projects ⟨[], 0⟩
        = .ok (collectThreaded analyze order ⟨[], 0⟩)
      ∧ (collectThreaded analyze order ⟨[], 0⟩).errors
          = projects.countP (fun p => isFault (analyze p))
      ∧ (∀ p ∈ projects, ∀ (n : Str) (sv : List (Str × List (Str × Str))),
          analyze p = .ok (some (n, sv)) →
          n ∈ (collectThreaded analyze order ⟨[], 0⟩).results.map Prod.fst)
      ∧ (∀ n ∈ (collectThreaded analyze order ⟨[], 0⟩).results.map Prod.fst,
          ∃ p ∈ projects, ∃ sv, analyze p = .ok (some (n, sv))))
    ∧ (∀ (P : Type) (analyze : P → AOutcome) (p : P), analyze p = .fault →
        collectDispatch analyze true [p] [p] ⟨[], 0⟩ = .error ⟨[], 0⟩) := by
  constructor
  · intro P analyze projects order hperm hlen
    refine ⟨?_, ?_, ?_, ?_⟩
    · unfold collectDispatch
      rw [if_pos]
      simp [hlen]
    · rw [collectThreaded_errors analyze order ⟨[], 0⟩]
      simpa using hperm.countP_eq (fun p => isFault (analyze p))
    · intro p hp n sv ha
      exact collectThreaded_mem_of_ok analyze order ⟨[], 0⟩ p n sv
        (hperm.mem_iff.mpr hp) ha
    · intro n hn
      rcases collectThreaded_keys_sub analyze order ⟨[], 0⟩ n hn with h2 | ⟨p, hp, sv, ha⟩
      · cases h2
      · exact ⟨p, hperm.mem_iff.mp hp, sv, ha⟩
  · intro P analyze p h
    unfold collectDispatch
    rw [if_neg (by simp)]
    simp [collectSequential, h]

theorem collect_fault_isolation_witness :
    collectDispatch analyzeMix true [1, 0] [0, 1] ⟨[], 0⟩
      = .ok (collectThreaded analyzeMix [1, 0] ⟨[], 0⟩)
    ∧ (collectThreaded analyzeMix [1, 0] ⟨[], 0⟩).errors
        = List.countP (fun p => isFault (analyzeMix p)) [0, 1] :=
  ⟨(collect_fault_isolation.1 Nat analyzeMix [0, 1] [1, 0]
      (by decide) (by decide)).1,
   (collect_fault_isolation.1 Nat analyzeMix [0, 1] [1, 0]
      (by decide) (by decide)).2.1⟩

/-- C7 (counterexample): the manifest key is computed with
`str.replace`, which removes every occurrence, so the file
`a.yml.yaml` (with `{web: {image: "nginx:1.21"}}` inside) is recorded
under `a`, not under its extension-stripped name `a.yml`. -/
theorem analyze_project_replace_all_counterexample :
    analyze_project demoGetContent demoParse demoRegex 7 "p".toList [oddFile]
      Stats.zero
      = .ok (some ⟨7, "p".toList, [("a".toList, [("web".toList, "1.21".toList)])]⟩,
        ⟨0, 1, 1, 1, 0⟩)
    ∧ manifestKey "a.yml.yaml".toList = "a".toList
    ∧ ¬("a".toList = "a.yml".toList) := by
  refine ⟨rfl, by decide, by decide⟩

/-- C7 (amended): a candidate manifest whose fetch succeeds with
non-empty text and whose extraction is non-empty and normalizes without
an exception is recorded under `manifestKey` of its filename — every
occurrence of `.yml` removed, then every occurrence of `.yaml`, then a
leading `services_` stripped (extension stripping only when those
substrings occur nowhere else); a later manifest with the same key would
overwrite it.  The spec's `infra.yaml` example yields
`{"infra": {"web": "1.21"}}`. -/
theorem analyze_project_records_manifest_key :
    (∀ (g : Str → Option Str) (po : Str → ParseOutcome) (rg : Str → SvcMap)
      (yf : FileEntry) (rest : List FileEntry)
      (ps : List (Str × List (Str × Str))) (st : Stats) (c : Str)
      (svcs : SvcMap) (nm : List (Str × Str)),
      g yf.fpath = some c → ¬(c = []) →
      find_services_in_yaml (rg c) (po c) = svcs → ¬(svcs = []) →
      normMapE svcs = .ok nm →
      analyzeLoop g po rg (yf :: rest) ps st
        = analyzeLoop g po rg rest (pyInsert ps (manifestKey yf.fname) nm)
            {st with total_yaml_files := st.total_yaml_files + 1,
                     total_services := st.total_services + svcs.length}
      ∧ pyLookup (manifestKey yf.fname)
          (pyInsert ps (manifestKey yf.fname) nm) = some nm)
    ∧ analyze_project demoGetContent demoParse demoRegex 1 "demo".toList
        demoFiles Stats.zero
      = .ok (some ⟨1, "demo".toList,
          [("infra".toList, [("web".toList, "1.21".toList)])]⟩,
        ⟨0, 1, 1, 1, 0⟩) := by
  constructor
  · intro g po rg yf rest ps st c svcs nm hc hc0 hs hs0 hn
    exact ⟨analyzeLoop_step g po rg yf rest ps st c svcs nm hc hc0 hs hs0 hn,
      pyLookup_insert_self ps (manifestKey yf.fname) nm⟩
  · rfl

/-- C8: every key produced by the normalizer satisfies the
normalized-name invariant (no `-`/`.`, no removable bracket group, no
doubled `_`, no outer `_`), every key of every ServiceMap stored by
`analyze_project` satisfies it, and the final results of the threaded
collector preserve it. -/
theorem stored_service_names_normalized :
    (∀ l : Str, normalized (normalize_service_name l) = true)
    ∧ (∀ (g : Str → Option Str) (po : Str → ParseOutcome) (rg : Str → SvcMap)
        (pid : Nat) (pname : Str) (files : List FileEntry) (st st' : Stats)
        (pr : ProjectResult),
        analyze_project g po rg pid pname files st = .ok (some pr, st') →
        ∀ e ∈ pr.services, ∀ p ∈ e.2, normalized p.1 = true)
    ∧ (∀ (P : Type) (analyze : P → AOutcome) (order : List P) (st : CollectSt),
        (∀ e ∈ st.results, ∀ m ∈ e.2, ∀ p ∈ m.2, normalized p.1 = true) →
        (∀ (q : P) (n : Str) (sv : List (Str × List (Str × Str))),
          analyze q = .ok (some (n, sv)) →
          ∀ m ∈ sv, ∀ p ∈ m.2, normalized p.1 = true) →
        ∀ e ∈ (collectThreaded analyze order st).results, ∀ m ∈ e.2, ∀ p ∈ m.2,
          normalized p.1 = true) := by
  refine ⟨normalized_normalize, ?_, ?_⟩
  · intro g po rg pid pname files st st' pr h
    exact analyze_project_normalized g po rg pid pname files st st' pr h
  · intro P analyze order st hst hok
    exact collectThreaded_results_pred analyze
      (fun e => ∀ m ∈ e.2, ∀ p ∈ m.2, normalized p.1 = true) order st hst
      (fun q n sv ha => hok q n sv ha)

theorem stored_service_names_normalized_witness :
    ∀ e ∈ [("infra".toList, [("web".toList, "1.21".toList)])],
      ∀ p ∈ e.2, normalized p.1 = true :=
  stored_service_names_normalized.2.1 demoGetContent demoParse demoRegex 1
    "demo".toList demoFiles Stats.zero ⟨0, 1, 1, 1, 0⟩
    ⟨1, "demo".toList, [("infra".toList, [("web".toList, "1.21".toList)])]⟩ rfl

/-- C9 (counterexample): an exception raised after a service has already
been recorded (here: a dict-valued `name` fallback at a node whose path
is the empty string) is swallowed, but the function returns the partial
map `{"a": "1"}`, not an empty map. -/
theorem find_services_partial_map_counterexample :
    find_services_in_yaml [] (.ok yPartial) = [(.s "a".toList, "1".toList)]
    ∧ ¬(find_services_in_yaml [] (.ok yPartial) = ([] : SvcMap))
    ∧ searchE yPartial [] [] = .error [(.s "a".toList, "1".toList)] := by
  refine ⟨by decide, by decide, rfl⟩

/-- C9 (amended): a non-`YAMLError` exception never propagates: when
`safe_load` itself raises, the map is empty; when the exception is raised
inside the traversal, the function returns the partially built map. -/
theorem find_services_swallows_exceptions :
    (∀ fb : SvcMap, find_services_in_yaml fb .otherError = [])
    ∧ (∀ (y : Yaml) (s : SvcMap) (fb : SvcMap),
        searchE y [] [] = .error s → find_services_in_yaml fb (.ok y) = s) := by
  refine ⟨fun fb => rfl, fun y s fb h => ?_⟩
  simp only [find_services_in_yaml]
  by_cases hf : yamlFalsy y = true
  · rw [searchE_falsy hf] at h
    cases h
  · rw [if_neg hf]
    simp only [h]

theorem find_services_swallows_exceptions_witness :
    find_services_in_yaml [(.atom "z".toList, "9".toList)] (.ok yPartial)
      = [(.s "a".toList, "1".toList)] :=
  find_services_swallows_exceptions.2 yPartial
    [(.s "a".toList, "1".toList)] [(.atom "z".toList, "9".toList)] rfl

/-- C10: the per-manifest `total_services` increment is the number of raw
(pre-normalization) extracted names while the stored map is the fold of
normalization-keyed writes; and when two raw names normalize to the same
key, the stored map is strictly smaller than the raw count and the
later-written tag is the one the key holds (absent a still-later
collision). -/
theorem total_services_counts_raw_names :
    (∀ (g : Str → Option Str) (po : Str → ParseOutcome) (rg : Str → SvcMap)
      (yf : FileEntry) (rest : List FileEntry)
      (ps : List (Str × List (Str × Str))) (st : Stats) (c : Str)
      (raw : List (Str × Str)),
      g yf.fpath = some c → ¬(c = []) →
      find_services_in_yaml (rg c) (po c) = raw.map (fun p => (PyKey.s p.1, p.2)) →
      ¬(raw.map (fun p => (PyKey.s p.1, p.2)) = ([] : SvcMap)) →
      analyzeLoop g po rg (yf :: rest) ps st
        = analyzeLoop g po rg rest
            (pyInsert ps (manifestKey yf.fname)
              (pyFoldIns [] (raw.map fun p => (normalize_service_name p.1, p.2))))
            {st with total_yaml_files := st.total_yaml_files + 1,
                     total_services := st.total_services + raw.length})
    ∧ (∀ (r1 r2 r3 : List (Str × Str)) (k1 t1 k2 t2 : Str),
        normalize_service_name k1 = normalize_service_name k2 →
        (pyFoldIns [] ((r1 ++ (k1, t1) :: r2 ++ (k2, t2) :: r3).map
            fun p => (normalize_service_name p.1, p.2))).length
          < (r1 ++ (k1, t1) :: r2 ++ (k2, t2) :: r3).length
        ∧ ((∀ p ∈ r3, ¬(normalize_service_name p.1 = normalize_service_name k1)) →
            pyLookup (normalize_service_name k1)
              (pyFoldIns [] ((r1 ++ (k1, t1) :: r2 ++ (k2, t2) :: r3).map
                fun p => (normalize_service_name p.1, p.2))) = some t2)) := by
  constructor
  · intro g po rg yf rest ps st c raw hc hc0 hs hs0
    have hnm : normMapE (raw.map fun p => (PyKey.s p.1, p.2))
        = .ok (pyFoldIns [] (raw.map fun p => (normalize_service_name p.1, p.2))) :=
      normMapGo_strings raw []
    have hstep := analyzeLoop_step g po rg yf rest ps st c
      (raw.map fun p => (PyKey.s p.1, p.2))
      (pyFoldIns [] (raw.map fun p => (normalize_service_name p.1, p.2)))
      hc hc0 hs hs0 hnm
    rw [hstep]
    rw [List.length_map]
  · intro r1 r2 r3 k1 t1 k2 t2 hcoll
    have hmap : (r1 ++ (k1, t1) :: r2 ++ (k2, t2) :: r3).map
        (fun p => (normalize_service_name p.1, p.2))
        = (r1.map fun p => (normalize_service_name p.1, p.2))
          ++ (normalize_service_name k1, t1)
            :: (r2.map fun p => (normalize_service_name p.1, p.2))
          ++ (normalize_service_name k1, t2)
            :: (r3.map fun p => (normalize_service_name p.1, p.2)) := by
      simp [hcoll]
    constructor
    · rw [hmap]
      have := pyFoldIns_length_lt_of_dup
        (r1.map fun p => (normalize_service_name p.1, p.2))
        (r2.map fun p => (normalize_service_name p.1, p.2))
        (r3.map fun p => (normalize_service_name p.1, p.2))
        (normalize_service_name k1) t1 t2
      simp only [List.length_append, List.length_cons, List.length_map] at this ⊢
      exact this
    · intro hlater
      rw [hmap]
      have e2 : (r1.map fun p => (normalize_service_name p.1, p.2))
          ++ (normalize_service_name k1, t1)
            :: (r2.map fun p => (normalize_service_name p.1, p.2))
          ++ (normalize_service_name k1, t2)
            :: (r3.map fun p => (normalize_service_name p.1, p.2))
          = ((r1.map fun p => (normalize_service_name p.1, p.2))
              ++ (normalize_service_name k1, t1)
                :: (r2.map fun p => (normalize_service_name p.1, p.2)))
            ++ (normalize_service_name k1, t2)
              :: (r3.map fun p => (normalize_service_name p.1, p.2)) := by
        simp
      rw [e2]
      apply pyLookup_fold_last
      intro p hp
      rcases List.mem_map.mp hp with ⟨p0, hp0, rfl⟩
      exact hlater p0 hp0

end YMLSpec
